/-
Verification of the quantum-simulator core specified for the
plaas-examples notebooks (PennyLane qubit rotation, noisy circuits,
JAX interface, Strawberry Fields simple circuit).

The notebooks delegate all simulation to vendor SDKs, so the simulator
semantics below (state engine, observable evaluator, sampler, optimizer)
are modelled from the specification's component design, using the gate
matrices and Kraus operators documented in the notebooks themselves.
-/
import Mathlib

open scoped BigOperators Matrix Kronecker


namespace PlaasSpec

/-! ## Single-qubit state engine

A pure single-qubit state is a complex vector of length 2.  Gates act by
left multiplication of their 2×2 unitary matrices (spec §4.1); the
observable evaluator takes the real part of `⟨ψ|O|ψ⟩` (spec §4.2). -/

/-- The initial single-qubit state `|0⟩`. -/
noncomputable def ket0 : Fin 2 → ℂ := fun i => if i = 0 then 1 else 0

/-- Rotation about the x axis, `RX(φ) = exp(-i φ σ_x / 2)`, the matrix
documented in the qubit-rotation notebook. -/
noncomputable def RX (φ : ℝ) : Matrix (Fin 2) (Fin 2) ℂ :=
  !![Real.cos (φ / 2), -Complex.I * Real.sin (φ / 2);
     -Complex.I * Real.sin (φ / 2), Real.cos (φ / 2)]

/-- Rotation about the y axis, `RY(φ) = exp(-i φ σ_y / 2)`. -/
noncomputable def RY (φ : ℝ) : Matrix (Fin 2) (Fin 2) ℂ :=
  !![Real.cos (φ / 2), -Real.sin (φ / 2);
     Real.sin (φ / 2), Real.cos (φ / 2)]

/-- The Pauli-Z observable. -/
noncomputable def PauliZ : Matrix (Fin 2) (Fin 2) ℂ := !![1, 0; 0, -1]

/-- The Pauli-X observable (bit flip). -/
noncomputable def PauliX : Matrix (Fin 2) (Fin 2) ℂ := !![0, 1; 1, 0]

/-- Apply a gate to a pure state by left multiplication (spec §4.1). -/
noncomputable def applyGateVec {n : Type*} [Fintype n] (U : Matrix n n ℂ) (ψ : n → ℂ) : n → ℂ :=
  U.mulVec ψ

/-- Expectation value `⟨ψ|O|ψ⟩`, taking the real part explicitly
(spec §4.2 numerical contract). -/
noncomputable def expval {n : Type*} [Fintype n] (O : Matrix n n ℂ) (ψ : n → ℂ) : ℝ :=
  (star ψ ⬝ᵥ O.mulVec ψ).re

/-- The qubit-rotation circuit of `basic_qubit_rotation.ipynb`:
`RX(params[0])` then `RY(params[1])` on `|0⟩`, measuring `⟨Z⟩`. -/
noncomputable def circuit (params : ℝ × ℝ) : ℝ :=
  expval PauliZ (applyGateVec (RY params.2) (applyGateVec (RX params.1) ket0))

/-- Half-angle form of the cosine, used to simplify circuit expectations. -/
lemma cos_eq_half_angle (φ : ℝ) :
    Real.cos φ = Real.cos (φ / 2) ^ 2 - Real.sin (φ / 2) ^ 2 := by
  rw [show φ = 2 * (φ / 2) by ring, Real.cos_two_mul']
  ring_nf

/-- The state prepared by `RX(φ₁)` then `RY(φ₂)` from `|0⟩`, in closed form. -/
lemma rotation_state (φ₁ φ₂ : ℝ) :
    applyGateVec (RY φ₂) (applyGateVec (RX φ₁) ket0) =
      ![(Real.cos (φ₂ / 2) * Real.cos (φ₁ / 2) : ℂ) +
          Complex.I * Real.sin (φ₂ / 2) * Real.sin (φ₁ / 2),
        (Real.sin (φ₂ / 2) * Real.cos (φ₁ / 2) : ℂ) -
          Complex.I * Real.cos (φ₂ / 2) * Real.sin (φ₁ / 2)] := by
  funext i
  fin_cases i <;>
    simp [applyGateVec, RX, RY, ket0, Matrix.mulVec, Matrix.dotProduct,
      Fin.sum_univ_two] <;> ring

/-- The textbook identity: the circuit's expectation is `cos φ₁ · cos φ₂`. -/
theorem circuit_eq_cos_cos (φ₁ φ₂ : ℝ) :
    circuit (φ₁, φ₂) = Real.cos φ₁ * Real.cos φ₂ := by
  rw [circuit, rotation_state]
  simp [expval, PauliZ, Matrix.mulVec, Matrix.dotProduct, Fin.sum_univ_two,
    Complex.add_re, Complex.mul_re, Complex.mul_im, Complex.sub_re, Complex.sub_im,
    -Complex.ofReal_cos, -Complex.ofReal_sin]
  rw [cos_eq_half_angle φ₁, cos_eq_half_angle φ₂]
  ring


/-! ## Certified numerics for the optimization claims

Rational/integer Taylor approximations of sine and cosine with proven error
bounds, used to certify the gradient-descent scenario numerically. -/








/-- Degree-15 Taylor polynomial of the cosine (terms `m < 16`, even part). -/
noncomputable def cosTaylor (x : ℝ) : ℝ :=
  ∑ j ∈ Finset.range 8, (-1 : ℝ) ^ j * x ^ (2 * j) / (Nat.factorial (2 * j))

/-- Degree-15 Taylor polynomial of the sine (terms `m < 16`, odd part). -/
noncomputable def sinTaylor (x : ℝ) : ℝ :=
  ∑ j ∈ Finset.range 8, (-1 : ℝ) ^ j * x ^ (2 * j + 1) / (Nat.factorial (2 * j + 1))

lemma exp_I_sum_eq (x : ℝ) :
    ∑ m ∈ Finset.range 16, ((x : ℂ) * Complex.I) ^ m / (Nat.factorial m) =
      (cosTaylor x : ℂ) + (sinTaylor x : ℂ) * Complex.I := by
  simp only [cosTaylor, sinTaylor]
  push_cast
  simp only [Finset.sum_range_succ, Finset.sum_range_zero]
  apply Complex.ext <;>
    simp [pow_succ, Complex.add_re, Complex.add_im, Complex.mul_re, Complex.mul_im,
      Complex.div_re, Complex.div_im, Complex.normSq, Nat.factorial]





lemma cos_taylor_bound {x : ℝ} (hx : |x| ≤ 1) :
    |Real.cos x - cosTaylor x| ≤ 1e-13 := by
  have habs : Complex.abs ((x : ℂ) * Complex.I) ≤ 1 := by
    simpa using hx
  have h := Complex.exp_bound habs (n := 16) (by norm_num)
  have hT := exp_I_sum_eq x
  have hre : (Complex.exp ((x : ℂ) * Complex.I)).re = Real.cos x := by
    simp [Complex.exp_mul_I, ← Complex.ofReal_cos, ← Complex.ofReal_sin]
  have hTre : ((∑ m ∈ Finset.range 16,
      ((x : ℂ) * Complex.I) ^ m / (Nat.factorial m))).re = cosTaylor x := by
    rw [hT]; simp
  calc |Real.cos x - cosTaylor x|
      = |(Complex.exp ((x : ℂ) * Complex.I) -
          ∑ m ∈ Finset.range 16, ((x : ℂ) * Complex.I) ^ m / (Nat.factorial m)).re| := by
        rw [Complex.sub_re, hre, hTre]
    _ ≤ Complex.abs (Complex.exp ((x : ℂ) * Complex.I) -
          ∑ m ∈ Finset.range 16, ((x : ℂ) * Complex.I) ^ m / (Nat.factorial m)) :=
        Complex.abs_re_le_abs _
    _ ≤ Complex.abs ((x : ℂ) * Complex.I) ^ 16 *
          ((Nat.succ 16 : ℝ) * ((Nat.factorial 16 : ℝ) * (16 : ℝ))⁻¹) := h
    _ ≤ 1 ^ 16 * ((Nat.succ 16 : ℝ) * ((Nat.factorial 16 : ℝ) * (16 : ℝ))⁻¹) := by
        gcongr
    _ ≤ 1e-13 := by norm_num [Nat.factorial]

lemma sin_taylor_bound {x : ℝ} (hx : |x| ≤ 1) :
    |Real.sin x - sinTaylor x| ≤ 1e-13 := by
  have habs : Complex.abs ((x : ℂ) * Complex.I) ≤ 1 := by
    simpa using hx
  have h := Complex.exp_bound habs (n := 16) (by norm_num)
  have hT := exp_I_sum_eq x
  have him : (Complex.exp ((x : ℂ) * Complex.I)).im = Real.sin x := by
    simp [Complex.exp_mul_I, ← Complex.ofReal_cos, ← Complex.ofReal_sin]
  have hTim : ((∑ m ∈ Finset.range 16,
      ((x : ℂ) * Complex.I) ^ m / (Nat.factorial m))).im = sinTaylor x := by
    rw [hT]; simp
  calc |Real.sin x - sinTaylor x|
      = |(Complex.exp ((x : ℂ) * Complex.I) -
          ∑ m ∈ Finset.range 16, ((x : ℂ) * Complex.I) ^ m / (Nat.factorial m)).im| := by
        rw [Complex.sub_im, him, hTim]
    _ ≤ Complex.abs (Complex.exp ((x : ℂ) * Complex.I) -
          ∑ m ∈ Finset.range 16, ((x : ℂ) * Complex.I) ^ m / (Nat.factorial m)) :=
        Complex.abs_im_le_abs _
    _ ≤ Complex.abs ((x : ℂ) * Complex.I) ^ 16 *
          ((Nat.succ 16 : ℝ) * ((Nat.factorial 16 : ℝ) * (16 : ℝ))⁻¹) := h
    _ ≤ 1 ^ 16 * ((Nat.succ 16 : ℝ) * ((Nat.factorial 16 : ℝ) * (16 : ℝ))⁻¹) := by
        gcongr
    _ ≤ 1e-13 := by norm_num [Nat.factorial]





/-- Rational evaluation of the cosine Taylor polynomial. -/
def cosTaylorQ (q : ℚ) : ℚ :=
  ∑ j ∈ Finset.range 8, (-1 : ℚ) ^ j * q ^ (2 * j) / (Nat.factorial (2 * j))

/-- Rational evaluation of the sine Taylor polynomial. -/
def sinTaylorQ (q : ℚ) : ℚ :=
  ∑ j ∈ Finset.range 8, (-1 : ℚ) ^ j * q ^ (2 * j + 1) / (Nat.factorial (2 * j + 1))

lemma cosTaylorQ_cast (q : ℚ) : ((cosTaylorQ q : ℚ) : ℝ) = cosTaylor (q : ℝ) := by
  simp only [cosTaylorQ, cosTaylor]
  push_cast
  rfl

lemma sinTaylorQ_cast (q : ℚ) : ((sinTaylorQ q : ℚ) : ℝ) = sinTaylor (q : ℝ) := by
  simp only [sinTaylorQ, sinTaylor]
  push_cast
  rfl

/-- Certified rational approximation of `cos q`, via Taylor at `q/4` and two
double-angle steps. -/
def cosQ (q : ℚ) : ℚ :=
  let c := cosTaylorQ (q / 4)
  8 * c ^ 4 - 8 * c ^ 2 + 1

/-- Certified rational approximation of `sin q`. -/
def sinQ (q : ℚ) : ℚ :=
  let c := cosTaylorQ (q / 4)
  let s := sinTaylorQ (q / 4)
  8 * s * c ^ 3 - 4 * s * c

lemma cos_quadruple (y : ℝ) :
    Real.cos (4 * y) = 8 * Real.cos y ^ 4 - 8 * Real.cos y ^ 2 + 1 := by
  rw [show (4 : ℝ) * y = 2 * (2 * y) by ring, Real.cos_two_mul, Real.cos_two_mul]
  ring

lemma sin_quadruple (y : ℝ) :
    Real.sin (4 * y) =
      8 * Real.sin y * Real.cos y ^ 3 - 4 * Real.sin y * Real.cos y := by
  rw [show (4 : ℝ) * y = 2 * (2 * y) by ring, Real.sin_two_mul, Real.sin_two_mul,
    Real.cos_two_mul]
  ring





lemma abs_sum4 (a b c d : ℝ) : |a + b + c + d| ≤ |a| + |b| + |c| + |d| := by
  have h1 := abs_add a b
  have h2 := abs_add (a + b) c
  have h3 := abs_add (a + b + c) d
  linarith

lemma cubic_comb_bound {c t : ℝ} (hc : |c| ≤ 1) (ht : |t| ≤ 3 / 2) :
    |8 * (c ^ 3 + c ^ 2 * t + c * t ^ 2 + t ^ 3) - 8 * (c + t)| ≤ 100 := by
  have b1 : |c| ^ 3 ≤ 1 := pow_le_one₀ (abs_nonneg c) hc
  have b2 : |c| ^ 2 * |t| ≤ 3 / 2 := by
    have : |c| ^ 2 ≤ 1 := pow_le_one₀ (abs_nonneg c) hc
    nlinarith [abs_nonneg t]
  have b3 : |c| * |t| ^ 2 ≤ 9 / 4 := by
    have : |t| ^ 2 ≤ 9 / 4 := by nlinarith [abs_nonneg t]
    nlinarith [abs_nonneg c]
  have b4 : |t| ^ 3 ≤ 27 / 8 := by nlinarith [abs_nonneg t]
  have hsum : |c ^ 3 + c ^ 2 * t + c * t ^ 2 + t ^ 3| ≤ 65 / 8 := by
    have := abs_sum4 (c ^ 3) (c ^ 2 * t) (c * t ^ 2) (t ^ 3)
    rw [abs_mul, abs_mul, abs_pow, abs_pow, abs_pow, abs_pow] at this
    linarith
  have hlin : |c + t| ≤ 5 / 2 := (abs_add c t).trans (by linarith)
  calc |8 * (c ^ 3 + c ^ 2 * t + c * t ^ 2 + t ^ 3) - 8 * (c + t)|
      ≤ |8 * (c ^ 3 + c ^ 2 * t + c * t ^ 2 + t ^ 3)| + |8 * (c + t)| :=
        abs_sub _ _
    _ ≤ 8 * (65 / 8) + 8 * (5 / 2) := by
        rw [abs_mul, abs_mul]
        have h8 : |(8 : ℝ)| = 8 := by norm_num
        rw [h8]
        nlinarith
    _ ≤ 100 := by norm_num

lemma cosQ_close {q : ℚ} (hq : |q| ≤ 17 / 5) :
    |Real.cos (q : ℝ) - (cosQ q : ℝ)| ≤ 1e-11 := by
  have hy1 : |((q / 4 : ℚ) : ℝ)| ≤ 1 := by
    rw [← Rat.cast_abs]
    have : |q / 4| ≤ 1 := by
      rw [abs_le] at hq ⊢
      constructor
      · have := hq.1; linarith
      · have := hq.2; linarith
    exact_mod_cast this
  set y : ℝ := ((q / 4 : ℚ) : ℝ) with hy
  have h4 : (q : ℝ) = 4 * y := by rw [hy]; push_cast; ring
  have hc := cos_taylor_bound hy1
  set c := Real.cos y with hcdef
  set t : ℝ := cosTaylor y with htdef
  have hd : |c - t| ≤ 1e-13 := by rw [abs_sub_comm]; rw [abs_sub_comm] at hc; exact hc
  have hcb : |c| ≤ 1 := Real.abs_cos_le_one y
  have htb : |t| ≤ 3 / 2 := by
    have : |t| ≤ |c| + |c - t| := by
      have := abs_sub_abs_le_abs_sub t c
      rw [abs_sub_comm] at this
      linarith
    linarith
  have hcast : ((cosQ q : ℚ) : ℝ) = 8 * t ^ 4 - 8 * t ^ 2 + 1 := by
    simp only [cosQ]
    push_cast
    rw [cosTaylorQ_cast]
  rw [h4, cos_quadruple, hcast]
  have key : 8 * c ^ 4 - 8 * c ^ 2 + 1 - (8 * t ^ 4 - 8 * t ^ 2 + 1) =
      (c - t) * (8 * (c ^ 3 + c ^ 2 * t + c * t ^ 2 + t ^ 3) - 8 * (c + t)) := by
    ring
  rw [key, abs_mul]
  calc |c - t| * |8 * (c ^ 3 + c ^ 2 * t + c * t ^ 2 + t ^ 3) - 8 * (c + t)|
      ≤ 1e-13 * 100 := by
        apply mul_le_mul hd (cubic_comb_bound hcb htb) (abs_nonneg _) (by norm_num)
    _ ≤ 1e-11 := by norm_num





lemma sinQ_close {q : ℚ} (hq : |q| ≤ 17 / 5) :
    |Real.sin (q : ℝ) - (sinQ q : ℝ)| ≤ 1e-11 := by
  have hy1 : |((q / 4 : ℚ) : ℝ)| ≤ 1 := by
    rw [← Rat.cast_abs]
    have : |q / 4| ≤ 1 := by
      rw [abs_le] at hq ⊢
      constructor
      · have := hq.1; linarith
      · have := hq.2; linarith
    exact_mod_cast this
  set y : ℝ := ((q / 4 : ℚ) : ℝ) with hy
  have h4 : (q : ℝ) = 4 * y := by rw [hy]; push_cast; ring
  have hcb' := cos_taylor_bound hy1
  have hsb' := sin_taylor_bound hy1
  set c := Real.cos y with hcdef
  set s := Real.sin y with hsdef
  set t : ℝ := cosTaylor y with htdef
  set u : ℝ := sinTaylor y with hudef
  have hdc : |c - t| ≤ 1e-13 := hcb'
  have hds : |s - u| ≤ 1e-13 := hsb'
  have hcb : |c| ≤ 1 := Real.abs_cos_le_one y
  have hsb : |s| ≤ 1 := Real.abs_sin_le_one y
  have htb : |t| ≤ 3 / 2 := by
    have h := abs_sub_abs_le_abs_sub t c
    rw [abs_sub_comm] at h
    linarith
  have hub : |u| ≤ 3 / 2 := by
    have h := abs_sub_abs_le_abs_sub u s
    rw [abs_sub_comm] at h
    linarith
  have hcast : ((sinQ q : ℚ) : ℝ) = 8 * u * t ^ 3 - 4 * u * t := by
    simp only [sinQ]
    push_cast
    rw [cosTaylorQ_cast, sinTaylorQ_cast]
  rw [h4, sin_quadruple, hcast]
  have key : 8 * s * c ^ 3 - 4 * s * c - (8 * u * t ^ 3 - 4 * u * t) =
      (s - u) * (8 * c ^ 3 - 4 * c) +
        u * ((c - t) * (8 * (c ^ 2 + c * t + t ^ 2) - 4)) := by
    ring
  rw [key]
  have hb1 : |8 * c ^ 3 - 4 * c| ≤ 12 := by
    have h1 : |8 * c ^ 3| + |4 * c| ≤ 12 := by
      rw [abs_mul, abs_mul, abs_pow]
      have : |c| ^ 3 ≤ 1 := pow_le_one₀ (abs_nonneg c) hcb
      have h8 : |(8 : ℝ)| = 8 := by norm_num
      have h4' : |(4 : ℝ)| = 4 := by norm_num
      rw [h8, h4']
      nlinarith
    linarith [abs_sub (8 * c ^ 3) (4 * c)]
  have hb2 : |8 * (c ^ 2 + c * t + t ^ 2) - 4| ≤ 42 := by
    have hsum : |c ^ 2 + c * t + t ^ 2| ≤ 19 / 4 := by
      have h1 := abs_add (c ^ 2) (c * t)
      have h2 := abs_add (c ^ 2 + c * t) (t ^ 2)
      simp only [abs_mul, abs_pow] at h1 h2
      have e1 : |c| ^ 2 ≤ 1 := pow_le_one₀ (abs_nonneg c) hcb
      have e2 : |c| * |t| ≤ 3 / 2 := by nlinarith [abs_nonneg c, abs_nonneg t]
      have e3 : |t| ^ 2 ≤ 9 / 4 := by nlinarith [abs_nonneg t]
      linarith
    have := abs_sub (8 * (c ^ 2 + c * t + t ^ 2)) (4 : ℝ)
    rw [abs_mul] at this
    have h8 : |(8 : ℝ)| = 8 := by norm_num
    rw [h8] at this
    have h4'' : |(4 : ℝ)| = 4 := by norm_num
    rw [h4''] at this
    linarith
  calc |(s - u) * (8 * c ^ 3 - 4 * c) +
        u * ((c - t) * (8 * (c ^ 2 + c * t + t ^ 2) - 4))|
      ≤ |(s - u) * (8 * c ^ 3 - 4 * c)| +
        |u * ((c - t) * (8 * (c ^ 2 + c * t + t ^ 2) - 4))| := abs_add _ _
    _ ≤ 1e-13 * 12 + (3 / 2) * (1e-13 * 42) := by
        rw [abs_mul, abs_mul, abs_mul]
        have p1 : |s - u| * |8 * c ^ 3 - 4 * c| ≤ 1e-13 * 12 :=
          mul_le_mul hds hb1 (abs_nonneg _) (by norm_num)
        have p2 : |c - t| * |8 * (c ^ 2 + c * t + t ^ 2) - 4| ≤ 1e-13 * 42 :=
          mul_le_mul hdc hb2 (abs_nonneg _) (by norm_num)
        have p3 : |u| * (|c - t| * |8 * (c ^ 2 + c * t + t ^ 2) - 4|) ≤
            (3 / 2) * (1e-13 * 42) :=
          mul_le_mul hub p2 (by positivity) (by norm_num)
        linarith
    _ ≤ 1e-11 := by norm_num










/-- Fixed-point scale: values are stored as integer multiples of `1 / scale`. -/
def scale : ℤ := 10 ^ 35

/-- Exact numerator of the cosine Taylor polynomial at `q / (4 * scale)`,
over the common denominator `Dc`. -/
def Pc (q : ℤ) : ℤ :=
  (4 * scale) ^ 14 * 87178291200 - q ^ 2 * ((4 * scale) ^ 12 * 43589145600) +
    q ^ 4 * ((4 * scale) ^ 10 * 3632428800) - q ^ 6 * ((4 * scale) ^ 8 * 121080960) +
    q ^ 8 * ((4 * scale) ^ 6 * 2162160) - q ^ 10 * ((4 * scale) ^ 4 * 24024) +
    q ^ 12 * ((4 * scale) ^ 2 * 182) - q ^ 14

def Dc : ℤ := (4 * scale) ^ 14 * 87178291200

/-- Exact numerator of the sine Taylor polynomial at `q / (4 * scale)`,
over the common denominator `Ds`. -/
def Ps (q : ℤ) : ℤ :=
  q * ((4 * scale) ^ 14 * 1307674368000) - q ^ 3 * ((4 * scale) ^ 12 * 217945728000) +
    q ^ 5 * ((4 * scale) ^ 10 * 10897286400) - q ^ 7 * ((4 * scale) ^ 8 * 259459200) +
    q ^ 9 * ((4 * scale) ^ 6 * 3603600) - q ^ 11 * ((4 * scale) ^ 4 * 32760) +
    q ^ 13 * ((4 * scale) ^ 2 * 210) - q ^ 15

def Ds : ℤ := (4 * scale) ^ 15 * 1307674368000

lemma scale_pos : (0 : ℤ) < scale := by norm_num [scale]

lemma Dc_pos : (0 : ℤ) < Dc := by norm_num [Dc, scale]

lemma Ds_pos : (0 : ℤ) < Ds := by norm_num [Ds, scale]

lemma Pc_div (q : ℤ) :
    (Pc q : ℚ) / (Dc : ℚ) = cosTaylorQ ((q : ℚ) / (scale : ℚ) / 4) := by
  have hD : (Dc : ℚ) ≠ 0 := by norm_num [Dc, scale]
  have hs : ((scale : ℤ) : ℚ) ≠ 0 := by norm_num [scale]
  simp only [cosTaylorQ, Finset.sum_range_succ, Finset.sum_range_zero]
  norm_num [Nat.factorial]
  simp only [Pc, Dc, scale]
  push_cast
  field_simp
  ring

lemma Ps_div (q : ℤ) :
    (Ps q : ℚ) / (Ds : ℚ) = sinTaylorQ ((q : ℚ) / (scale : ℚ) / 4) := by
  have hD : (Ds : ℚ) ≠ 0 := by norm_num [Ds, scale]
  simp only [sinTaylorQ, Finset.sum_range_succ, Finset.sum_range_zero]
  norm_num [Nat.factorial]
  simp only [Ps, Ds, scale]
  push_cast
  field_simp
  ring













/-- Scaled-integer cosine: `cosZ q / scale ≈ cos (q / scale)`. -/
def cosZ (q : ℤ) : ℤ :=
  ((8 * Pc q ^ 4 - 8 * Pc q ^ 2 * Dc ^ 2 + Dc ^ 4) * scale).fdiv (Dc ^ 4)

/-- Scaled-integer sine: `sinZ q / scale ≈ sin (q / scale)`. -/
def sinZ (q : ℤ) : ℤ :=
  ((8 * Ps q * Pc q ^ 3 - 4 * Ps q * Pc q * Dc ^ 2) * scale).fdiv (Ds * Dc ^ 3)

lemma fdiv_le_div_q {a b : ℤ} (hb : 0 < b) :
    ((a.fdiv b : ℤ) : ℚ) ≤ (a : ℚ) / (b : ℚ) := by
  have h := Int.fmod_add_fdiv a b
  have hm : 0 ≤ a.fmod b := Int.fmod_nonneg' a hb
  have hbq : (0 : ℚ) < (b : ℚ) := by exact_mod_cast hb
  rw [le_div_iff₀ hbq]
  have : (b : ℚ) * (a.fdiv b : ℤ) ≤ (a.fmod b : ℤ) + (b : ℚ) * (a.fdiv b : ℤ) := by
    have hmq : (0 : ℚ) ≤ ((a.fmod b : ℤ) : ℚ) := by exact_mod_cast hm
    linarith
  calc ((a.fdiv b : ℤ) : ℚ) * b = (b : ℚ) * (a.fdiv b : ℤ) := by ring
    _ ≤ (a.fmod b : ℤ) + (b : ℚ) * (a.fdiv b : ℤ) := this
    _ = ((a.fmod b + b * a.fdiv b : ℤ) : ℚ) := by push_cast; ring
    _ = (a : ℚ) := by rw [h]

lemma div_lt_fdiv_add_one_q {a b : ℤ} (hb : 0 < b) :
    (a : ℚ) / (b : ℚ) < ((a.fdiv b : ℤ) : ℚ) + 1 := by
  have h := Int.fmod_add_fdiv a b
  have hm : a.fmod b < b := Int.fmod_lt_of_pos a hb
  have hbq : (0 : ℚ) < (b : ℚ) := by exact_mod_cast hb
  rw [div_lt_iff₀ hbq]
  have hmq : ((a.fmod b : ℤ) : ℚ) < (b : ℚ) := by exact_mod_cast hm
  calc (a : ℚ) = ((a.fmod b + b * a.fdiv b : ℤ) : ℚ) := by rw [h]
    _ = ((a.fmod b : ℤ) : ℚ) + (b : ℚ) * (a.fdiv b : ℤ) := by push_cast; ring
    _ < (b : ℚ) + (b : ℚ) * (a.fdiv b : ℤ) := by linarith
    _ = (((a.fdiv b : ℤ) : ℚ) + 1) * b := by ring





lemma fdiv_close {a b : ℤ} (hb : 0 < b) :
    |(a : ℚ) / (b : ℚ) - ((a.fdiv b : ℤ) : ℚ)| ≤ 1 := by
  have h1 := fdiv_le_div_q (a := a) hb
  have h2 := div_lt_fdiv_add_one_q (a := a) hb
  rw [abs_le]
  constructor <;> linarith

/-- The scaled-integer cosine agrees with the rational approximant to `1/scale`. -/
lemma cosZ_vs_cosQ (q : ℤ) :
    |cosQ ((q : ℚ) / (scale : ℚ)) - ((cosZ q : ℤ) : ℚ) / (scale : ℚ)| ≤
      1 / (scale : ℚ) := by
  have hD4 : (0 : ℤ) < Dc ^ 4 := pow_pos Dc_pos 4
  have hsq : (0 : ℚ) < (scale : ℚ) := by exact_mod_cast scale_pos
  have hDq : ((Dc : ℤ) : ℚ) ≠ 0 := by
    have h := Dc_pos
    exact_mod_cast ne_of_gt h
  have hval : cosQ ((q : ℚ) / (scale : ℚ)) =
      ((8 * Pc q ^ 4 - 8 * Pc q ^ 2 * Dc ^ 2 + Dc ^ 4 : ℤ) : ℚ) / ((Dc ^ 4 : ℤ) : ℚ) := by
    have hc : cosTaylorQ ((q : ℚ) / (scale : ℚ) / 4) = (Pc q : ℚ) / (Dc : ℚ) :=
      (Pc_div q).symm
    simp only [cosQ, hc]
    push_cast
    field_simp
    ring
  have key := fdiv_close (a := (8 * Pc q ^ 4 - 8 * Pc q ^ 2 * Dc ^ 2 + Dc ^ 4) * scale)
    (b := Dc ^ 4) hD4
  have hcz : ((cosZ q : ℤ) : ℚ) =
      (((((8 * Pc q ^ 4 - 8 * Pc q ^ 2 * Dc ^ 2 + Dc ^ 4) * scale).fdiv (Dc ^ 4) : ℤ)) : ℚ) := by
    simp [cosZ]
  have hfrac : (((8 * Pc q ^ 4 - 8 * Pc q ^ 2 * Dc ^ 2 + Dc ^ 4) * scale : ℤ) : ℚ) /
      ((Dc ^ 4 : ℤ) : ℚ) = cosQ ((q : ℚ) / (scale : ℚ)) * (scale : ℚ) := by
    rw [hval]; push_cast; field_simp
  rw [← hcz] at key
  rw [hfrac] at key
  rw [abs_le] at key ⊢
  have expand : cosQ ((q : ℚ) / (scale : ℚ)) - ((cosZ q : ℤ) : ℚ) / (scale : ℚ) =
      (cosQ ((q : ℚ) / (scale : ℚ)) * (scale : ℚ) - ((cosZ q : ℤ) : ℚ)) / (scale : ℚ) := by
    field_simp
  rw [expand]
  constructor
  · rw [show -(1 / (scale : ℚ)) = -1 / (scale : ℚ) from (neg_div _ _).symm]
    gcongr
    exact key.1
  · gcongr
    exact key.2





lemma sinZ_vs_sinQ (q : ℤ) :
    |sinQ ((q : ℚ) / (scale : ℚ)) - ((sinZ q : ℤ) : ℚ) / (scale : ℚ)| ≤
      1 / (scale : ℚ) := by
  have hDs3 : (0 : ℤ) < Ds * Dc ^ 3 := mul_pos Ds_pos (pow_pos Dc_pos 3)
  have hsq : (0 : ℚ) < (scale : ℚ) := by exact_mod_cast scale_pos
  have hDq : ((Dc : ℤ) : ℚ) ≠ 0 := by
    have h := Dc_pos
    exact_mod_cast ne_of_gt h
  have hDsq : ((Ds : ℤ) : ℚ) ≠ 0 := by
    have h := Ds_pos
    exact_mod_cast ne_of_gt h
  have hval : sinQ ((q : ℚ) / (scale : ℚ)) =
      ((8 * Ps q * Pc q ^ 3 - 4 * Ps q * Pc q * Dc ^ 2 : ℤ) : ℚ) /
        ((Ds * Dc ^ 3 : ℤ) : ℚ) := by
    have hc : cosTaylorQ ((q : ℚ) / (scale : ℚ) / 4) = (Pc q : ℚ) / (Dc : ℚ) :=
      (Pc_div q).symm
    have hs : sinTaylorQ ((q : ℚ) / (scale : ℚ) / 4) = (Ps q : ℚ) / (Ds : ℚ) :=
      (Ps_div q).symm
    simp only [sinQ, hc, hs]
    push_cast
    field_simp
    ring
  have key := fdiv_close (a := (8 * Ps q * Pc q ^ 3 - 4 * Ps q * Pc q * Dc ^ 2) * scale)
    (b := Ds * Dc ^ 3) hDs3
  have hcz : ((sinZ q : ℤ) : ℚ) =
      (((((8 * Ps q * Pc q ^ 3 - 4 * Ps q * Pc q * Dc ^ 2) * scale).fdiv
          (Ds * Dc ^ 3) : ℤ)) : ℚ) := by
    simp [sinZ]
  have hfrac : (((8 * Ps q * Pc q ^ 3 - 4 * Ps q * Pc q * Dc ^ 2) * scale : ℤ) : ℚ) /
      ((Ds * Dc ^ 3 : ℤ) : ℚ) = sinQ ((q : ℚ) / (scale : ℚ)) * (scale : ℚ) := by
    rw [hval]; push_cast; field_simp
  rw [← hcz] at key
  rw [hfrac] at key
  rw [abs_le] at key ⊢
  have expand : sinQ ((q : ℚ) / (scale : ℚ)) - ((sinZ q : ℤ) : ℚ) / (scale : ℚ) =
      (sinQ ((q : ℚ) / (scale : ℚ)) * (scale : ℚ) - ((sinZ q : ℤ) : ℚ)) / (scale : ℚ) := by
    field_simp
  rw [expand]
  constructor
  · rw [show -(1 / (scale : ℚ)) = -1 / (scale : ℚ) from (neg_div _ _).symm]
    gcongr
    exact key.1
  · gcongr
    exact key.2

lemma abs_r_le {q : ℤ} (hq : |q| ≤ 34 * 10 ^ 34) : |(q : ℚ) / (scale : ℚ)| ≤ 17 / 5 := by
  have hsq : (0 : ℚ) < (scale : ℚ) := by exact_mod_cast scale_pos
  rw [abs_div, abs_of_pos hsq, div_le_iff₀ hsq]
  have hqq : |(q : ℚ)| ≤ ((34 * 10 ^ 34 : ℤ) : ℚ) := by
    rw [← Int.cast_abs]
    exact_mod_cast hq
  calc |(q : ℚ)| ≤ ((34 * 10 ^ 34 : ℤ) : ℚ) := hqq
    _ ≤ 17 / 5 * (scale : ℚ) := by norm_num [scale]

lemma cosZ_close {q : ℤ} (hq : |q| ≤ 34 * 10 ^ 34) :
    |Real.cos ((q : ℝ) / ((scale : ℤ) : ℝ)) - ((cosZ q : ℤ) : ℝ) / ((scale : ℤ) : ℝ)| ≤
      2 / 10 ^ 11 := by
  have h1 := cosQ_close (abs_r_le hq)
  have h2 : |(cosQ ((q : ℚ) / (scale : ℚ)) : ℝ) - ((cosZ q : ℤ) : ℝ) / ((scale : ℤ) : ℝ)| ≤
      ((1 / (scale : ℚ) : ℚ) : ℝ) := by
    have := cosZ_vs_cosQ q
    have hcast : (((cosQ ((q : ℚ) / (scale : ℚ)) - ((cosZ q : ℤ) : ℚ) / (scale : ℚ)) : ℚ) : ℝ) =
        (cosQ ((q : ℚ) / (scale : ℚ)) : ℝ) - ((cosZ q : ℤ) : ℝ) / ((scale : ℤ) : ℝ) := by
      push_cast
      ring
    rw [← hcast, ← Rat.cast_abs]
    exact_mod_cast this
  have hr : (((q : ℚ) / (scale : ℚ) : ℚ) : ℝ) = (q : ℝ) / ((scale : ℤ) : ℝ) := by
    push_cast
    ring
  rw [hr] at h1
  calc |Real.cos ((q : ℝ) / ((scale : ℤ) : ℝ)) - ((cosZ q : ℤ) : ℝ) / ((scale : ℤ) : ℝ)|
      ≤ |Real.cos ((q : ℝ) / ((scale : ℤ) : ℝ)) - (cosQ ((q : ℚ) / (scale : ℚ)) : ℝ)| +
        |(cosQ ((q : ℚ) / (scale : ℚ)) : ℝ) - ((cosZ q : ℤ) : ℝ) / ((scale : ℤ) : ℝ)| := by
        have := abs_sub_abs_le_abs_sub (Real.cos ((q : ℝ) / ((scale : ℤ) : ℝ)) -
          ((cosZ q : ℤ) : ℝ) / ((scale : ℤ) : ℝ)) 0
        exact abs_sub_le _ _ _
    _ ≤ 1e-11 + ((1 / (scale : ℚ) : ℚ) : ℝ) := add_le_add h1 h2
    _ ≤ 2 / 10 ^ 11 := by
        have hs : ((1 / (scale : ℚ) : ℚ) : ℝ) = 1 / 10 ^ 35 := by
          rw [show (scale : ℤ) = 10 ^ 35 from rfl]
          push_cast
          norm_num
        rw [hs]
        norm_num

lemma sinZ_close {q : ℤ} (hq : |q| ≤ 34 * 10 ^ 34) :
    |Real.sin ((q : ℝ) / ((scale : ℤ) : ℝ)) - ((sinZ q : ℤ) : ℝ) / ((scale : ℤ) : ℝ)| ≤
      2 / 10 ^ 11 := by
  have h1 := sinQ_close (abs_r_le hq)
  have h2 : |(sinQ ((q : ℚ) / (scale : ℚ)) : ℝ) - ((sinZ q : ℤ) : ℝ) / ((scale : ℤ) : ℝ)| ≤
      ((1 / (scale : ℚ) : ℚ) : ℝ) := by
    have := sinZ_vs_sinQ q
    have hcast : (((sinQ ((q : ℚ) / (scale : ℚ)) - ((sinZ q : ℤ) : ℚ) / (scale : ℚ)) : ℚ) : ℝ) =
        (sinQ ((q : ℚ) / (scale : ℚ)) : ℝ) - ((sinZ q : ℤ) : ℝ) / ((scale : ℤ) : ℝ) := by
      push_cast
      ring
    rw [← hcast, ← Rat.cast_abs]
    exact_mod_cast this
  have hr : (((q : ℚ) / (scale : ℚ) : ℚ) : ℝ) = (q : ℝ) / ((scale : ℤ) : ℝ) := by
    push_cast
    ring
  rw [hr] at h1
  calc |Real.sin ((q : ℝ) / ((scale : ℤ) : ℝ)) - ((sinZ q : ℤ) : ℝ) / ((scale : ℤ) : ℝ)|
      ≤ |Real.sin ((q : ℝ) / ((scale : ℤ) : ℝ)) - (sinQ ((q : ℚ) / (scale : ℚ)) : ℝ)| +
        |(sinQ ((q : ℚ) / (scale : ℚ)) : ℝ) - ((sinZ q : ℤ) : ℝ) / ((scale : ℤ) : ℝ)| :=
        abs_sub_le _ _ _
    _ ≤ 1e-11 + ((1 / (scale : ℚ) : ℚ) : ℝ) := add_le_add h1 h2
    _ ≤ 2 / 10 ^ 11 := by
        have hs : ((1 / (scale : ℚ) : ℚ) : ℝ) = 1 / 10 ^ 35 := by
          rw [show (scale : ℤ) = 10 ^ 35 from rfl]
          push_cast
          norm_num
        rw [hs]
        norm_num





lemma abs_mul_le {x y X Y : ℝ} (hx : |x| ≤ X) (hy : |y| ≤ Y) : |x * y| ≤ X * Y := by
  rw [abs_mul]
  exact mul_le_mul hx hy (abs_nonneg y) ((abs_nonneg x).trans hx)

lemma abs_cos_sub_cos_le (p q : ℝ) : |Real.cos p - Real.cos q| ≤ |p - q| := by
  rw [Real.cos_sub_cos]
  calc |(-2) * Real.sin ((p + q) / 2) * Real.sin ((p - q) / 2)|
      = 2 * |Real.sin ((p + q) / 2)| * |Real.sin ((p - q) / 2)| := by
        rw [abs_mul, abs_mul]
        norm_num
    _ ≤ 2 * 1 * ((|p - q|) / 2) := by
        have h1 := Real.abs_sin_le_one ((p + q) / 2)
        have h2 := Real.abs_sin_le_abs (x := (p - q) / 2)
        rw [abs_div] at h2
        have h3 : |(2 : ℝ)| = 2 := by norm_num
        rw [h3] at h2
        have h0 := abs_nonneg (Real.sin ((p - q) / 2))
        nlinarith [abs_nonneg (Real.sin ((p + q) / 2))]
    _ = |p - q| := by ring

lemma abs_sin_sub_sin_le (p q : ℝ) : |Real.sin p - Real.sin q| ≤ |p - q| := by
  rw [Real.sin_sub_sin]
  calc |2 * Real.sin ((p - q) / 2) * Real.cos ((p + q) / 2)|
      = 2 * |Real.sin ((p - q) / 2)| * |Real.cos ((p + q) / 2)| := by
        rw [abs_mul, abs_mul]
        norm_num
    _ ≤ 2 * ((|p - q|) / 2) * 1 := by
        have h1 := Real.abs_cos_le_one ((p + q) / 2)
        have h2 := Real.abs_sin_le_abs (x := (p - q) / 2)
        rw [abs_div] at h2
        have h3 : |(2 : ℝ)| = 2 := by norm_num
        rw [h3] at h2
        nlinarith [abs_nonneg (Real.sin ((p - q) / 2)), abs_nonneg (Real.cos ((p + q) / 2))]
    _ = |p - q| := by ring

/-- Cubic bound for the error of the linearization of the sine at `0`. -/
lemma sin_lin {t : ℝ} (ht : |t| ≤ 1) : |Real.sin t - t| ≤ |t| ^ 3 / 4 := by
  have h := Real.sin_bound ht
  have h2 : |Real.sin t - t| ≤ |Real.sin t - (t - t ^ 3 / 6)| + |t ^ 3 / 6| := by
    have := abs_add (Real.sin t - (t - t ^ 3 / 6)) (-(t ^ 3 / 6))
    simp only [← sub_eq_add_neg] at this
    calc |Real.sin t - t| = |Real.sin t - (t - t ^ 3 / 6) - t ^ 3 / 6| := by ring_nf
      _ ≤ |Real.sin t - (t - t ^ 3 / 6)| + |t ^ 3 / 6| := by
          have := abs_sub (Real.sin t - (t - t ^ 3 / 6)) (t ^ 3 / 6)
          linarith
  have h3 : |t ^ 3 / 6| = |t| ^ 3 / 6 := by
    rw [abs_div, abs_pow]
    norm_num
  have h4 : |t| ^ 4 ≤ |t| ^ 3 := pow_le_pow_of_le_one (abs_nonneg t) ht (by norm_num)
  rw [h3] at h2
  nlinarith [h2, h, h4, pow_nonneg (abs_nonneg t) 3]





/-- One gradient-descent step tracked against rational shadow data: the sine
linearization error for the first component. -/
lemma sin_shift_est {a xr cx δ ε : ℝ} (h1 : |a - xr| ≤ δ)
    (hcx : |Real.cos xr - cx| ≤ ε) (hδ0 : 0 ≤ δ) (hδ : δ ≤ 1 / 100)
    (hε0 : 0 ≤ ε) (hε : ε ≤ 1 / 10 ^ 10) :
    |Real.sin a - Real.sin xr - (a - xr) * cx| ≤ δ ^ 2 / 2 + δ * ε + δ ^ 2 / 800 := by
  set h := a - xr with hh
  have hhd : |h| ≤ δ := h1
  have hhalf : |h / 2| ≤ 1 := by
    rw [abs_div]
    have : |(2 : ℝ)| = 2 := by norm_num
    rw [this]
    linarith
  have hsplit : Real.sin a - Real.sin xr = 2 * Real.sin (h / 2) * Real.cos ((a + xr) / 2) := by
    rw [Real.sin_sub_sin]
  have hkey : Real.sin a - Real.sin xr - h * cx =
      2 * Real.sin (h / 2) * (Real.cos ((a + xr) / 2) - cx) +
        (2 * Real.sin (h / 2) - h) * cx := by
    rw [hsplit]; ring
  have b1 : |2 * Real.sin (h / 2)| ≤ |h| := by
    rw [abs_mul]
    have hs := Real.abs_sin_le_abs (x := h / 2)
    rw [abs_div] at hs
    norm_num at hs ⊢
    linarith
  have b2 : |Real.cos ((a + xr) / 2) - cx| ≤ |h| / 2 + ε := by
    have t1 : |Real.cos ((a + xr) / 2) - Real.cos xr| ≤ |h| / 2 := by
      have := abs_cos_sub_cos_le ((a + xr) / 2) xr
      have heq : (a + xr) / 2 - xr = h / 2 := by rw [hh]; ring
      rw [heq] at this
      rw [abs_div] at this
      have h2 : |(2 : ℝ)| = 2 := by norm_num
      rw [h2] at this
      exact this
    calc |Real.cos ((a + xr) / 2) - cx|
        ≤ |Real.cos ((a + xr) / 2) - Real.cos xr| + |Real.cos xr - cx| := abs_sub_le _ _ _
      _ ≤ |h| / 2 + ε := add_le_add t1 hcx
  have b3 : |2 * Real.sin (h / 2) - h| ≤ |h| ^ 3 / 16 := by
    have := sin_lin hhalf
    have heq : 2 * Real.sin (h / 2) - h = 2 * (Real.sin (h / 2) - h / 2) := by ring
    rw [heq, abs_mul]
    have h2 : |(2 : ℝ)| = 2 := by norm_num
    rw [h2]
    have hcube : |h / 2| ^ 3 = |h| ^ 3 / 8 := by
      rw [abs_div]
      have : |(2 : ℝ)| = 2 := by norm_num
      rw [this]
      ring
    rw [hcube] at this
    linarith
  have b4 : |cx| ≤ 1 + ε := by
    have := Real.abs_cos_le_one xr
    have h := abs_sub_abs_le_abs_sub cx (Real.cos xr)
    rw [abs_sub_comm] at h
    linarith
  rw [hkey]
  have main : |2 * Real.sin (h / 2) * (Real.cos ((a + xr) / 2) - cx) +
      (2 * Real.sin (h / 2) - h) * cx| ≤
      |h| * (|h| / 2 + ε) + |h| ^ 3 / 16 * (1 + ε) := by
    calc |2 * Real.sin (h / 2) * (Real.cos ((a + xr) / 2) - cx) +
        (2 * Real.sin (h / 2) - h) * cx|
        ≤ |2 * Real.sin (h / 2) * (Real.cos ((a + xr) / 2) - cx)| +
          |(2 * Real.sin (h / 2) - h) * cx| := abs_add _ _
      _ ≤ |h| * (|h| / 2 + ε) + |h| ^ 3 / 16 * (1 + ε) := by
          have p1 : |2 * Real.sin (h / 2) * (Real.cos ((a + xr) / 2) - cx)| ≤
              |h| * (|h| / 2 + ε) := abs_mul_le b1 b2
          have p2 : |(2 * Real.sin (h / 2) - h) * cx| ≤ |h| ^ 3 / 16 * (1 + ε) :=
            abs_mul_le b3 b4
          linarith
  have hnn := abs_nonneg h
  have hc1 : |h| * (|h| / 2 + ε) ≤ δ * (δ / 2 + ε) := by nlinarith
  have hc2 : |h| ^ 3 / 16 * (1 + ε) ≤ δ ^ 3 / 16 * (1 + ε) := by
    have h3le : |h| ^ 3 ≤ δ ^ 3 := pow_le_pow_left₀ (abs_nonneg h) hhd 3
    have := mul_le_mul_of_nonneg_right h3le (by linarith : (0 : ℝ) ≤ 1 + ε)
    linarith
  have hc3 : δ ^ 3 / 16 * (1 + ε) ≤ δ ^ 2 / 800 := by
    have hd3 : δ ^ 3 ≤ δ ^ 2 / 100 := by
      nlinarith [mul_le_mul_of_nonneg_left hδ (sq_nonneg δ)]
    have hstep : δ ^ 3 * (1 + ε) ≤ δ ^ 2 / 100 * (1 + ε) :=
      mul_le_mul_of_nonneg_right hd3 (by linarith)
    have hstep2 : δ ^ 2 / 100 * (1 + ε) ≤ δ ^ 2 / 100 * 2 :=
      mul_le_mul_of_nonneg_left (by linarith) (by positivity)
    linarith
  calc |2 * Real.sin (h / 2) * (Real.cos ((a + xr) / 2) - cx) +
      (2 * Real.sin (h / 2) - h) * cx|
      ≤ |h| * (|h| / 2 + ε) + |h| ^ 3 / 16 * (1 + ε) := main
    _ ≤ δ * (δ / 2 + ε) + δ ^ 2 / 800 := by linarith
    _ = δ ^ 2 / 2 + δ * ε + δ ^ 2 / 800 := by ring

/-- Mirror estimate: cosine increment against `-h·sin`. -/
lemma cos_shift_est {b yr sy δ ε : ℝ} (h2 : |b - yr| ≤ δ)
    (hsy : |Real.sin yr - sy| ≤ ε) (hδ0 : 0 ≤ δ) (hδ : δ ≤ 1 / 100)
    (hε0 : 0 ≤ ε) (hε : ε ≤ 1 / 10 ^ 10) :
    |Real.cos b - Real.cos yr + (b - yr) * sy| ≤ δ ^ 2 / 2 + δ * ε + δ ^ 2 / 800 := by
  set h := b - yr with hh
  have hhd : |h| ≤ δ := h2
  have hhalf : |h / 2| ≤ 1 := by
    rw [abs_div]
    have : |(2 : ℝ)| = 2 := by norm_num
    rw [this]
    linarith
  have hsplit : Real.cos b - Real.cos yr =
      -2 * Real.sin ((b + yr) / 2) * Real.sin (h / 2) := by
    rw [Real.cos_sub_cos]
  have hkey : Real.cos b - Real.cos yr + h * sy =
      (-(2 * Real.sin (h / 2))) * (Real.sin ((b + yr) / 2) - sy) +
        (-(2 * Real.sin (h / 2) - h)) * sy := by
    rw [hsplit]; ring
  have b1 : |-(2 * Real.sin (h / 2))| ≤ |h| := by
    rw [abs_neg, abs_mul]
    have hs := Real.abs_sin_le_abs (x := h / 2)
    rw [abs_div] at hs
    norm_num at hs ⊢
    linarith
  have b2 : |Real.sin ((b + yr) / 2) - sy| ≤ |h| / 2 + ε := by
    have t1 : |Real.sin ((b + yr) / 2) - Real.sin yr| ≤ |h| / 2 := by
      have := abs_sin_sub_sin_le ((b + yr) / 2) yr
      have heq : (b + yr) / 2 - yr = h / 2 := by rw [hh]; ring
      rw [heq] at this
      rw [abs_div] at this
      have h2' : |(2 : ℝ)| = 2 := by norm_num
      rw [h2'] at this
      exact this
    calc |Real.sin ((b + yr) / 2) - sy|
        ≤ |Real.sin ((b + yr) / 2) - Real.sin yr| + |Real.sin yr - sy| := abs_sub_le _ _ _
      _ ≤ |h| / 2 + ε := add_le_add t1 hsy
  have b3 : |-(2 * Real.sin (h / 2) - h)| ≤ |h| ^ 3 / 16 := by
    rw [abs_neg]
    have := sin_lin hhalf
    have heq : 2 * Real.sin (h / 2) - h = 2 * (Real.sin (h / 2) - h / 2) := by ring
    rw [heq, abs_mul]
    have h2' : |(2 : ℝ)| = 2 := by norm_num
    rw [h2']
    have hcube : |h / 2| ^ 3 = |h| ^ 3 / 8 := by
      rw [abs_div]
      have : |(2 : ℝ)| = 2 := by norm_num
      rw [this]
      ring
    rw [hcube] at this
    linarith
  have b4 : |sy| ≤ 1 + ε := by
    have := Real.abs_sin_le_one yr
    have h := abs_sub_abs_le_abs_sub sy (Real.sin yr)
    rw [abs_sub_comm] at h
    linarith
  rw [hkey]
  have main : |(-(2 * Real.sin (h / 2))) * (Real.sin ((b + yr) / 2) - sy) +
      (-(2 * Real.sin (h / 2) - h)) * sy| ≤
      |h| * (|h| / 2 + ε) + |h| ^ 3 / 16 * (1 + ε) := by
    calc |(-(2 * Real.sin (h / 2))) * (Real.sin ((b + yr) / 2) - sy) +
        (-(2 * Real.sin (h / 2) - h)) * sy|
        ≤ |(-(2 * Real.sin (h / 2))) * (Real.sin ((b + yr) / 2) - sy)| +
          |(-(2 * Real.sin (h / 2) - h)) * sy| := abs_add _ _
      _ ≤ |h| * (|h| / 2 + ε) + |h| ^ 3 / 16 * (1 + ε) := by
          have p1 := abs_mul_le b1 b2
          have p2 := abs_mul_le b3 b4
          linarith
  have hnn := abs_nonneg h
  have hc1 : |h| * (|h| / 2 + ε) ≤ δ * (δ / 2 + ε) := by nlinarith
  have hc2 : |h| ^ 3 / 16 * (1 + ε) ≤ δ ^ 3 / 16 * (1 + ε) := by
    have h3le : |h| ^ 3 ≤ δ ^ 3 := pow_le_pow_left₀ (abs_nonneg h) hhd 3
    have := mul_le_mul_of_nonneg_right h3le (by linarith : (0 : ℝ) ≤ 1 + ε)
    linarith
  have hc3 : δ ^ 3 / 16 * (1 + ε) ≤ δ ^ 2 / 800 := by
    have hd3 : δ ^ 3 ≤ δ ^ 2 / 100 := by
      nlinarith [mul_le_mul_of_nonneg_left hδ (sq_nonneg δ)]
    have hstep : δ ^ 3 * (1 + ε) ≤ δ ^ 2 / 100 * (1 + ε) :=
      mul_le_mul_of_nonneg_right hd3 (by linarith)
    have hstep2 : δ ^ 2 / 100 * (1 + ε) ≤ δ ^ 2 / 100 * 2 :=
      mul_le_mul_of_nonneg_left (by linarith) (by positivity)
    linarith
  calc |(-(2 * Real.sin (h / 2))) * (Real.sin ((b + yr) / 2) - sy) +
      (-(2 * Real.sin (h / 2) - h)) * sy|
      ≤ |h| * (|h| / 2 + ε) + |h| ^ 3 / 16 * (1 + ε) := main
    _ ≤ δ * (δ / 2 + ε) + δ ^ 2 / 800 := by linarith
    _ = δ ^ 2 / 2 + δ * ε + δ ^ 2 / 800 := by ring





/-- One-step tracking estimate for the first parameter component of the
gradient-descent iteration. -/
lemma step_est1 {a b xr yr sx cx sy cy δ ε : ℝ}
    (h1 : |a - xr| ≤ δ) (h2 : |b - yr| ≤ δ)
    (hsx : |Real.sin xr - sx| ≤ ε) (hcx : |Real.cos xr - cx| ≤ ε)
    (hsy : |Real.sin yr - sy| ≤ ε) (hcy : |Real.cos yr - cy| ≤ ε)
    (hδ0 : 0 ≤ δ) (hδ : δ ≤ 1 / 100) (hε0 : 0 ≤ ε) (hε : ε ≤ 1 / 10 ^ 10) :
    |(a + (4 / 5) * (Real.sin a * Real.cos b)) - (xr + (4 / 5) * (sx * cy))| ≤
      (|1 + (4 / 5) * (cx * cy)| + (4 / 5) * |sx * sy|) * δ + (12 / 5) * (δ ^ 2 + ε) := by
  have hE1 := sin_shift_est h1 hcx hδ0 hδ hε0 hε
  have hE2 := cos_shift_est h2 hsy hδ0 hδ hε0 hε
  set E1 := Real.sin a - Real.sin xr - (a - xr) * cx with hE1def
  set E2 := Real.cos b - Real.cos yr + (b - yr) * sy with hE2def
  have bsx : |sx| ≤ 1 + ε := by
    have := Real.abs_sin_le_one xr
    have h := abs_sub_abs_le_abs_sub sx (Real.sin xr)
    rw [abs_sub_comm] at h
    linarith
  have bsy : |sy| ≤ 1 + ε := by
    have := Real.abs_sin_le_one yr
    have h := abs_sub_abs_le_abs_sub sy (Real.sin yr)
    rw [abs_sub_comm] at h
    linarith
  have bcx : |cx| ≤ 1 + ε := by
    have := Real.abs_cos_le_one xr
    have h := abs_sub_abs_le_abs_sub cx (Real.cos xr)
    rw [abs_sub_comm] at h
    linarith
  have bcy : |cy| ≤ 1 + ε := by
    have := Real.abs_cos_le_one yr
    have h := abs_sub_abs_le_abs_sub cy (Real.cos yr)
    rw [abs_sub_comm] at h
    linarith
  have bcb : |Real.cos b - cy| ≤ δ + ε := by
    have t1 := abs_cos_sub_cos_le b yr
    calc |Real.cos b - cy| ≤ |Real.cos b - Real.cos yr| + |Real.cos yr - cy| :=
        abs_sub_le _ _ _
      _ ≤ δ + ε := add_le_add (t1.trans h2) hcy
  -- the residual after extracting the linear part
  set Etot := Real.sin a * Real.cos b - sx * cy -
      ((a - xr) * (cx * cy) - (b - yr) * (sx * sy)) with hEtotdef
  have hdecomp : Etot = (a - xr) * cx * (Real.cos b - cy) + E1 * Real.cos b +
      Real.sin xr * E2 - (b - yr) * ((Real.sin xr - sx) * sy) +
      ((Real.sin xr - sx) * Real.cos yr + sx * (Real.cos yr - cy)) := by
    rw [hEtotdef, hE1def, hE2def]
    ring
  have hB1 : |(a - xr) * cx * (Real.cos b - cy)| ≤ δ * (1 + ε) * (δ + ε) :=
    abs_mul_le (abs_mul_le h1 bcx) bcb
  have hB2 : |E1 * Real.cos b| ≤ (δ ^ 2 / 2 + δ * ε + δ ^ 2 / 800) * 1 :=
    abs_mul_le hE1 (Real.abs_cos_le_one b)
  have hB3 : |Real.sin xr * E2| ≤ 1 * (δ ^ 2 / 2 + δ * ε + δ ^ 2 / 800) :=
    abs_mul_le (Real.abs_sin_le_one xr) hE2
  have hB4 : |(b - yr) * ((Real.sin xr - sx) * sy)| ≤ δ * (ε * (1 + ε)) :=
    abs_mul_le h2 (abs_mul_le hsx bsy)
  have hB5 : |(Real.sin xr - sx) * Real.cos yr + sx * (Real.cos yr - cy)| ≤
      ε * 1 + (1 + ε) * ε := by
    have p1 : |(Real.sin xr - sx) * Real.cos yr| ≤ ε * 1 :=
      abs_mul_le hsx (Real.abs_cos_le_one yr)
    have p2 : |sx * (Real.cos yr - cy)| ≤ (1 + ε) * ε := abs_mul_le bsx hcy
    calc |(Real.sin xr - sx) * Real.cos yr + sx * (Real.cos yr - cy)|
        ≤ |(Real.sin xr - sx) * Real.cos yr| + |sx * (Real.cos yr - cy)| := abs_add _ _
      _ ≤ ε * 1 + (1 + ε) * ε := add_le_add p1 p2
  have hEtot : |Etot| ≤ 3 * (δ ^ 2 + ε) := by
    have habs : |Etot| ≤ δ * (1 + ε) * (δ + ε) + (δ ^ 2 / 2 + δ * ε + δ ^ 2 / 800) * 1 +
        1 * (δ ^ 2 / 2 + δ * ε + δ ^ 2 / 800) + δ * (ε * (1 + ε)) +
        (ε * 1 + (1 + ε) * ε) := by
      rw [hdecomp]
      have t1 := abs_add ((a - xr) * cx * (Real.cos b - cy)) (E1 * Real.cos b)
      have t2 := abs_add ((a - xr) * cx * (Real.cos b - cy) + E1 * Real.cos b)
        (Real.sin xr * E2)
      have t3 := abs_sub ((a - xr) * cx * (Real.cos b - cy) + E1 * Real.cos b +
        Real.sin xr * E2) ((b - yr) * ((Real.sin xr - sx) * sy))
      have t4 := abs_add ((a - xr) * cx * (Real.cos b - cy) + E1 * Real.cos b +
        Real.sin xr * E2 - (b - yr) * ((Real.sin xr - sx) * sy))
        ((Real.sin xr - sx) * Real.cos yr + sx * (Real.cos yr - cy))
      linarith
    -- polynomial cleanup: with δ ≤ 1/100 and ε ≤ 1e-10 the bound collapses
    have hexp : δ * (1 + ε) * (δ + ε) + (δ ^ 2 / 2 + δ * ε + δ ^ 2 / 800) * 1 +
        1 * (δ ^ 2 / 2 + δ * ε + δ ^ 2 / 800) + δ * (ε * (1 + ε)) + (ε * 1 + (1 + ε) * ε) =
        2 * δ ^ 2 + δ ^ 2 / 400 + δ ^ 2 * ε + 4 * (δ * ε) + 2 * (δ * ε * ε) +
          2 * ε + ε * ε := by ring
    have p1 : δ * ε ≤ (1 / 100) * ε := mul_le_mul_of_nonneg_right hδ hε0
    have p2 : ε * ε ≤ (1 / 10 ^ 10) * ε := mul_le_mul_of_nonneg_right hε hε0
    have p3 : δ ^ 2 * ε ≤ δ ^ 2 * (1 / 10 ^ 10) := mul_le_mul_of_nonneg_left hε (sq_nonneg δ)
    have hδ1 : δ ≤ 1 := hδ.trans (by norm_num)
    have p4 : δ * ε ≤ ε := mul_le_of_le_one_left hε0 hδ1
    have p5 : δ * ε * ε ≤ ε * ε := mul_le_mul_of_nonneg_right p4 hε0
    have hsq := sq_nonneg δ
    linarith [habs, hexp]
  have hsplit : (a + (4 / 5) * (Real.sin a * Real.cos b)) - (xr + (4 / 5) * (sx * cy)) =
      (a - xr) * (1 + (4 / 5) * (cx * cy)) - (4 / 5) * ((b - yr) * (sx * sy)) +
        (4 / 5) * Etot := by
    rw [hEtotdef]
    ring
  rw [hsplit]
  have m1 : |(a - xr) * (1 + (4 / 5) * (cx * cy))| ≤ δ * |1 + (4 / 5) * (cx * cy)| := by
    rw [abs_mul]
    exact mul_le_mul_of_nonneg_right h1 (abs_nonneg _)
  have m2 : |(4 / 5) * ((b - yr) * (sx * sy))| ≤ (4 / 5) * (δ * |sx * sy|) := by
    rw [abs_mul]
    have : |(4 / 5 : ℝ)| = 4 / 5 := by norm_num
    rw [this]
    have inner : |(b - yr) * (sx * sy)| ≤ δ * |sx * sy| := by
      rw [abs_mul]
      exact mul_le_mul_of_nonneg_right h2 (abs_nonneg _)
    linarith
  have m3 : |(4 / 5) * Etot| ≤ (4 / 5) * (3 * (δ ^ 2 + ε)) := by
    rw [abs_mul]
    have : |(4 / 5 : ℝ)| = 4 / 5 := by norm_num
    rw [this]
    linarith
  calc |(a - xr) * (1 + (4 / 5) * (cx * cy)) - (4 / 5) * ((b - yr) * (sx * sy)) +
      (4 / 5) * Etot|
      ≤ |(a - xr) * (1 + (4 / 5) * (cx * cy)) - (4 / 5) * ((b - yr) * (sx * sy))| +
        |(4 / 5) * Etot| := abs_add _ _
    _ ≤ |(a - xr) * (1 + (4 / 5) * (cx * cy))| + |(4 / 5) * ((b - yr) * (sx * sy))| +
        |(4 / 5) * Etot| := by
        have := abs_sub ((a - xr) * (1 + (4 / 5) * (cx * cy)))
          ((4 / 5) * ((b - yr) * (sx * sy)))
        linarith
    _ ≤ δ * |1 + (4 / 5) * (cx * cy)| + (4 / 5) * (δ * |sx * sy|) +
        (4 / 5) * (3 * (δ ^ 2 + ε)) := by linarith
    _ = (|1 + (4 / 5) * (cx * cy)| + (4 / 5) * |sx * sy|) * δ + (12 / 5) * (δ ^ 2 + ε) := by
        ring





/-- One-step tracking estimate for the second parameter component. -/
lemma step_est2 {a b xr yr sx cx sy cy δ ε : ℝ}
    (h1 : |a - xr| ≤ δ) (h2 : |b - yr| ≤ δ)
    (hsx : |Real.sin xr - sx| ≤ ε) (hcx : |Real.cos xr - cx| ≤ ε)
    (hsy : |Real.sin yr - sy| ≤ ε) (hcy : |Real.cos yr - cy| ≤ ε)
    (hδ0 : 0 ≤ δ) (hδ : δ ≤ 1 / 100) (hε0 : 0 ≤ ε) (hε : ε ≤ 1 / 10 ^ 10) :
    |(b + (4 / 5) * (Real.cos a * Real.sin b)) - (yr + (4 / 5) * (cx * sy))| ≤
      (|1 + (4 / 5) * (cx * cy)| + (4 / 5) * |sx * sy|) * δ + (12 / 5) * (δ ^ 2 + ε) := by
  have hE1 := cos_shift_est h1 hsx hδ0 hδ hε0 hε
  have hE2 := sin_shift_est h2 hcy hδ0 hδ hε0 hε
  set E1 := Real.cos a - Real.cos xr + (a - xr) * sx with hE1def
  set E2 := Real.sin b - Real.sin yr - (b - yr) * cy with hE2def
  have bsx : |sx| ≤ 1 + ε := by
    have := Real.abs_sin_le_one xr
    have h := abs_sub_abs_le_abs_sub sx (Real.sin xr)
    rw [abs_sub_comm] at h
    linarith
  have bsy : |sy| ≤ 1 + ε := by
    have := Real.abs_sin_le_one yr
    have h := abs_sub_abs_le_abs_sub sy (Real.sin yr)
    rw [abs_sub_comm] at h
    linarith
  have bcy : |cy| ≤ 1 + ε := by
    have := Real.abs_cos_le_one yr
    have h := abs_sub_abs_le_abs_sub cy (Real.cos yr)
    rw [abs_sub_comm] at h
    linarith
  have bsb : |Real.sin b - sy| ≤ δ + ε := by
    have t1 := abs_sin_sub_sin_le b yr
    calc |Real.sin b - sy| ≤ |Real.sin b - Real.sin yr| + |Real.sin yr - sy| :=
        abs_sub_le _ _ _
      _ ≤ δ + ε := add_le_add (t1.trans h2) hsy
  set Etot := Real.cos a * Real.sin b - cx * sy -
      ((b - yr) * (cx * cy) - (a - xr) * (sx * sy)) with hEtotdef
  have hdecomp : Etot = -((a - xr) * sx * (Real.sin b - sy)) + E1 * Real.sin b +
      Real.cos xr * E2 + (b - yr) * ((Real.cos xr - cx) * cy) +
      ((Real.cos xr - cx) * Real.sin yr + cx * (Real.sin yr - sy)) := by
    rw [hEtotdef, hE1def, hE2def]
    ring
  have hB1 : |-((a - xr) * sx * (Real.sin b - sy))| ≤ δ * (1 + ε) * (δ + ε) := by
    rw [abs_neg]
    exact abs_mul_le (abs_mul_le h1 bsx) bsb
  have hB2 : |E1 * Real.sin b| ≤ (δ ^ 2 / 2 + δ * ε + δ ^ 2 / 800) * 1 :=
    abs_mul_le hE1 (Real.abs_sin_le_one b)
  have hB3 : |Real.cos xr * E2| ≤ 1 * (δ ^ 2 / 2 + δ * ε + δ ^ 2 / 800) :=
    abs_mul_le (Real.abs_cos_le_one xr) hE2
  have hB4 : |(b - yr) * ((Real.cos xr - cx) * cy)| ≤ δ * (ε * (1 + ε)) :=
    abs_mul_le h2 (abs_mul_le hcx bcy)
  have hB5 : |(Real.cos xr - cx) * Real.sin yr + cx * (Real.sin yr - sy)| ≤
      ε * 1 + (1 + ε) * ε := by
    have p1 : |(Real.cos xr - cx) * Real.sin yr| ≤ ε * 1 :=
      abs_mul_le hcx (Real.abs_sin_le_one yr)
    have bcx : |cx| ≤ 1 + ε := by
      have := Real.abs_cos_le_one xr
      have h := abs_sub_abs_le_abs_sub cx (Real.cos xr)
      rw [abs_sub_comm] at h
      linarith
    have p2 : |cx * (Real.sin yr - sy)| ≤ (1 + ε) * ε := abs_mul_le bcx hsy
    calc |(Real.cos xr - cx) * Real.sin yr + cx * (Real.sin yr - sy)|
        ≤ |(Real.cos xr - cx) * Real.sin yr| + |cx * (Real.sin yr - sy)| := abs_add _ _
      _ ≤ ε * 1 + (1 + ε) * ε := add_le_add p1 p2
  have hEtot : |Etot| ≤ 3 * (δ ^ 2 + ε) := by
    have habs : |Etot| ≤ δ * (1 + ε) * (δ + ε) + (δ ^ 2 / 2 + δ * ε + δ ^ 2 / 800) * 1 +
        1 * (δ ^ 2 / 2 + δ * ε + δ ^ 2 / 800) + δ * (ε * (1 + ε)) +
        (ε * 1 + (1 + ε) * ε) := by
      rw [hdecomp]
      have t1 := abs_add (-((a - xr) * sx * (Real.sin b - sy))) (E1 * Real.sin b)
      have t2 := abs_add (-((a - xr) * sx * (Real.sin b - sy)) + E1 * Real.sin b)
        (Real.cos xr * E2)
      have t3 := abs_add (-((a - xr) * sx * (Real.sin b - sy)) + E1 * Real.sin b +
        Real.cos xr * E2) ((b - yr) * ((Real.cos xr - cx) * cy))
      have t4 := abs_add (-((a - xr) * sx * (Real.sin b - sy)) + E1 * Real.sin b +
        Real.cos xr * E2 + (b - yr) * ((Real.cos xr - cx) * cy))
        ((Real.cos xr - cx) * Real.sin yr + cx * (Real.sin yr - sy))
      linarith
    have hexp : δ * (1 + ε) * (δ + ε) + (δ ^ 2 / 2 + δ * ε + δ ^ 2 / 800) * 1 +
        1 * (δ ^ 2 / 2 + δ * ε + δ ^ 2 / 800) + δ * (ε * (1 + ε)) + (ε * 1 + (1 + ε) * ε) =
        2 * δ ^ 2 + δ ^ 2 / 400 + δ ^ 2 * ε + 4 * (δ * ε) + 2 * (δ * ε * ε) +
          2 * ε + ε * ε := by ring
    have p1 : δ * ε ≤ (1 / 100) * ε := mul_le_mul_of_nonneg_right hδ hε0
    have p2 : ε * ε ≤ (1 / 10 ^ 10) * ε := mul_le_mul_of_nonneg_right hε hε0
    have p3 : δ ^ 2 * ε ≤ δ ^ 2 * (1 / 10 ^ 10) := mul_le_mul_of_nonneg_left hε (sq_nonneg δ)
    have hδ1 : δ ≤ 1 := hδ.trans (by norm_num)
    have p4 : δ * ε ≤ ε := mul_le_of_le_one_left hε0 hδ1
    have p5 : δ * ε * ε ≤ ε * ε := mul_le_mul_of_nonneg_right p4 hε0
    have hsq := sq_nonneg δ
    linarith [habs, hexp]
  have hsplit : (b + (4 / 5) * (Real.cos a * Real.sin b)) - (yr + (4 / 5) * (cx * sy)) =
      (b - yr) * (1 + (4 / 5) * (cx * cy)) - (4 / 5) * ((a - xr) * (sx * sy)) +
        (4 / 5) * Etot := by
    rw [hEtotdef]
    ring
  rw [hsplit]
  have m1 : |(b - yr) * (1 + (4 / 5) * (cx * cy))| ≤ δ * |1 + (4 / 5) * (cx * cy)| := by
    rw [abs_mul]
    exact mul_le_mul_of_nonneg_right h2 (abs_nonneg _)
  have m2 : |(4 / 5) * ((a - xr) * (sx * sy))| ≤ (4 / 5) * (δ * |sx * sy|) := by
    rw [abs_mul]
    have h45 : |(4 / 5 : ℝ)| = 4 / 5 := by norm_num
    rw [h45]
    have inner : |(a - xr) * (sx * sy)| ≤ δ * |sx * sy| := by
      rw [abs_mul]
      exact mul_le_mul_of_nonneg_right h1 (abs_nonneg _)
    linarith
  have m3 : |(4 / 5) * Etot| ≤ (4 / 5) * (3 * (δ ^ 2 + ε)) := by
    rw [abs_mul]
    have h45 : |(4 / 5 : ℝ)| = 4 / 5 := by norm_num
    rw [h45]
    linarith
  calc |(b - yr) * (1 + (4 / 5) * (cx * cy)) - (4 / 5) * ((a - xr) * (sx * sy)) +
      (4 / 5) * Etot|
      ≤ |(b - yr) * (1 + (4 / 5) * (cx * cy)) - (4 / 5) * ((a - xr) * (sx * sy))| +
        |(4 / 5) * Etot| := abs_add _ _
    _ ≤ |(b - yr) * (1 + (4 / 5) * (cx * cy))| + |(4 / 5) * ((a - xr) * (sx * sy))| +
        |(4 / 5) * Etot| := by
        have := abs_sub ((b - yr) * (1 + (4 / 5) * (cx * cy)))
          ((4 / 5) * ((a - xr) * (sx * sy)))
        linarith
    _ ≤ δ * |1 + (4 / 5) * (cx * cy)| + (4 / 5) * (δ * |sx * sy|) +
        (4 / 5) * (3 * (δ ^ 2 + ε)) := by linarith
    _ = (|1 + (4 / 5) * (cx * cy)| + (4 / 5) * |sx * sy|) * δ + (12 / 5) * (δ ^ 2 + ε) := by
        ring





/-- Ceiling division on integers (used to round error bounds upward). -/
def cdiv (a b : ℤ) : ℤ := -((-a).fdiv b)

/-- Scaled error tolerance of `sinZ`/`cosZ`: `2e-11 * scale`. -/
def epsZ : ℤ := 2 * 10 ^ 24

/-- One certified step of the gradient-descent shadow iteration, carrying the
interval radius `d` (all quantities scaled by `scale`). -/
def stepZ (p : ℤ × ℤ × ℤ) : ℤ × ℤ × ℤ :=
  let x := p.1
  let y := p.2.1
  let d := p.2.2
  let sx := sinZ x
  let cx := cosZ x
  let sy := sinZ y
  let cy := cosZ y
  let x' := x + (4 * (sx * cy)).fdiv (5 * scale)
  let y' := y + (4 * (cx * sy)).fdiv (5 * scale)
  let A := cdiv |5 * scale ^ 2 + 4 * (cx * cy)| (5 * scale) + cdiv (4 * |sx * sy|) (5 * scale)
  let d' := cdiv (A * d) scale + 3 * (cdiv (d * d) scale + epsZ) + 1
  (x', y', d')

/-- The shadow iteration started at the scaled initial parameters
`[0.011, 0.012]` of the qubit-rotation optimization demo. -/
def simZ : ℕ → ℤ × ℤ × ℤ
  | 0 => (11 * 10 ^ 32, 12 * 10 ^ 32, 0)
  | n + 1 => stepZ (simZ n)

/-- Executable certificate: domain bounds along the first 20 shadow steps and
the final cost bound. -/
def certC2 : Bool :=
  ((List.range 21).all fun k =>
    let p := simZ k
    decide (|p.1| ≤ 34 * 10 ^ 34) && decide (|p.2.1| ≤ 34 * 10 ^ 34) &&
      decide (0 ≤ p.2.2) && decide (p.2.2 ≤ 10 ^ 33)) &&
  (let p := simZ 20
   let B := cosZ p.1 * cosZ p.2.1 + scale ^ 2 + cdiv (201 * (p.2.2 + epsZ) * scale) 100
   decide (1000 * B < scale ^ 2) && decide (0 ≤ B))







lemma fdiv_le_div_r {a b : ℤ} (hb : 0 < b) :
    ((a.fdiv b : ℤ) : ℝ) ≤ (a : ℝ) / (b : ℝ) := by
  have h := fdiv_le_div_q (a := a) hb
  have hbq : (0 : ℚ) < (b : ℚ) := by exact_mod_cast hb
  have : (((a.fdiv b : ℤ) : ℚ) : ℝ) ≤ (((a : ℚ) / (b : ℚ) : ℚ) : ℝ) := by exact_mod_cast h
  calc ((a.fdiv b : ℤ) : ℝ) = (((a.fdiv b : ℤ) : ℚ) : ℝ) := by push_cast; ring
    _ ≤ (((a : ℚ) / (b : ℚ) : ℚ) : ℝ) := this
    _ = (a : ℝ) / (b : ℝ) := by push_cast; ring

lemma div_lt_fdiv_add_one_r {a b : ℤ} (hb : 0 < b) :
    (a : ℝ) / (b : ℝ) < ((a.fdiv b : ℤ) : ℝ) + 1 := by
  have h := div_lt_fdiv_add_one_q (a := a) hb
  have : (((a : ℚ) / (b : ℚ) : ℚ) : ℝ) < (((a.fdiv b : ℤ) : ℚ) : ℝ) + 1 := by
    exact_mod_cast h
  calc (a : ℝ) / (b : ℝ) = (((a : ℚ) / (b : ℚ) : ℚ) : ℝ) := by push_cast; ring
    _ < (((a.fdiv b : ℤ) : ℚ) : ℝ) + 1 := this
    _ = ((a.fdiv b : ℤ) : ℝ) + 1 := by push_cast; ring

lemma div_le_cdiv_r {a b : ℤ} (hb : 0 < b) :
    (a : ℝ) / (b : ℝ) ≤ ((cdiv a b : ℤ) : ℝ) := by
  have h := fdiv_le_div_r (a := -a) hb
  have hc : ((cdiv a b : ℤ) : ℝ) = -(((-a).fdiv b : ℤ) : ℝ) := by
    simp [cdiv]
  rw [hc]
  have : ((-a : ℤ) : ℝ) = -(a : ℝ) := by push_cast; ring
  rw [this] at h
  have hbr : (0 : ℝ) < (b : ℝ) := by exact_mod_cast hb
  have : -(a : ℝ) / (b : ℝ) = -((a : ℝ) / (b : ℝ)) := by ring
  rw [this] at h
  linarith

lemma abs_fdiv_err_r {a b : ℤ} (hb : 0 < b) :
    |((a.fdiv b : ℤ) : ℝ) - (a : ℝ) / (b : ℝ)| ≤ 1 := by
  have h1 := fdiv_le_div_r (a := a) hb
  have h2 := div_lt_fdiv_add_one_r (a := a) hb
  rw [abs_le]
  constructor <;> linarith





lemma stepZ_eq (x y d : ℤ) :
    stepZ (x, y, d) =
      (x + (4 * (sinZ x * cosZ y)).fdiv (5 * scale),
       y + (4 * (cosZ x * sinZ y)).fdiv (5 * scale),
       cdiv ((cdiv |5 * scale ^ 2 + 4 * (cosZ x * cosZ y)| (5 * scale) +
           cdiv (4 * |sinZ x * sinZ y|) (5 * scale)) * d) scale +
         3 * (cdiv (d * d) scale + epsZ) + 1) := rfl

lemma scale_pos_r : (0 : ℝ) < ((scale : ℤ) : ℝ) := by
  norm_num [scale]

lemma eps_cast : ((epsZ : ℤ) : ℝ) / ((scale : ℤ) : ℝ) = 2 / 10 ^ 11 := by
  norm_num [epsZ, scale]

set_option maxHeartbeats 2000000 in
/-- Soundness of one shadow step: the real gradient-descent step stays within
the certified radius of the integer shadow step. -/
lemma simZ_step_sound {a b : ℝ} {x y d : ℤ}
    (hax : |a - (x : ℝ) / ((scale : ℤ) : ℝ)| ≤ (d : ℝ) / ((scale : ℤ) : ℝ))
    (hby : |b - (y : ℝ) / ((scale : ℤ) : ℝ)| ≤ (d : ℝ) / ((scale : ℤ) : ℝ))
    (hx : |x| ≤ 34 * 10 ^ 34) (hy : |y| ≤ 34 * 10 ^ 34)
    (hd0 : 0 ≤ d) (hd : d ≤ 10 ^ 33) :
    |(a + (4 / 5) * (Real.sin a * Real.cos b)) -
        ((stepZ (x, y, d)).1 : ℝ) / ((scale : ℤ) : ℝ)| ≤
      ((stepZ (x, y, d)).2.2 : ℝ) / ((scale : ℤ) : ℝ) ∧
    |(b + (4 / 5) * (Real.cos a * Real.sin b)) -
        ((stepZ (x, y, d)).2.1 : ℝ) / ((scale : ℤ) : ℝ)| ≤
      ((stepZ (x, y, d)).2.2 : ℝ) / ((scale : ℤ) : ℝ) := by
  rw [stepZ_eq]
  dsimp only
  set Sr : ℝ := ((scale : ℤ) : ℝ) with hSr
  have hSpos : (0 : ℝ) < Sr := scale_pos_r
  have hSne : Sr ≠ 0 := ne_of_gt hSpos
  have hSval : Sr = 10 ^ 35 := by rw [hSr]; norm_num [scale]
  set δ : ℝ := (d : ℝ) / Sr with hδdef
  set ε : ℝ := 2 / 10 ^ 11 with hεdef
  set sxr : ℝ := ((sinZ x : ℤ) : ℝ) / Sr with hsxr
  set cxr : ℝ := ((cosZ x : ℤ) : ℝ) / Sr with hcxr
  set syr : ℝ := ((sinZ y : ℤ) : ℝ) / Sr with hsyr
  set cyr : ℝ := ((cosZ y : ℤ) : ℝ) / Sr with hcyr
  have hδ0 : 0 ≤ δ := by
    rw [hδdef]
    have : (0 : ℝ) ≤ (d : ℝ) := by exact_mod_cast hd0
    positivity
  have hδle : δ ≤ 1 / 100 := by
    rw [hδdef, hSval, div_le_iff₀ (by norm_num : (0:ℝ) < (10:ℝ) ^ 35)]
    have : (d : ℝ) ≤ 10 ^ 33 := by exact_mod_cast hd
    linarith
  have hε0 : (0 : ℝ) ≤ ε := by rw [hεdef]; norm_num
  have hεle : ε ≤ 1 / 10 ^ 10 := by rw [hεdef]; norm_num
  have hsx : |Real.sin ((x : ℝ) / Sr) - sxr| ≤ ε := sinZ_close hx
  have hcx : |Real.cos ((x : ℝ) / Sr) - cxr| ≤ ε := cosZ_close hx
  have hsy : |Real.sin ((y : ℝ) / Sr) - syr| ≤ ε := sinZ_close hy
  have hcy : |Real.cos ((y : ℝ) / Sr) - cyr| ≤ ε := cosZ_close hy
  have est1 := step_est1 hax hby hsx hcx hsy hcy hδ0 hδle hε0 hεle
  have est2 := step_est2 hax hby hsx hcx hsy hcy hδ0 hδle hε0 hεle
  set U : ℝ := |1 + (4 / 5) * (cxr * cyr)| + (4 / 5) * |sxr * syr| with hUdef
  have hU0 : 0 ≤ U := by
    rw [hUdef]
    positivity
  have h5S : (0 : ℤ) < 5 * scale := by norm_num [scale]
  have h5Sr : ((5 * scale : ℤ) : ℝ) = 5 * Sr := by push_cast; ring
  -- rounding error of the two state updates
  have hxr_round : |((x + (4 * (sinZ x * cosZ y)).fdiv (5 * scale) : ℤ) : ℝ) / Sr -
      ((x : ℝ) / Sr + (4 / 5) * (sxr * cyr))| ≤ 1 / Sr := by
    have herr := abs_fdiv_err_r (a := 4 * (sinZ x * cosZ y)) h5S
    rw [h5Sr] at herr
    have hexp : ((x + (4 * (sinZ x * cosZ y)).fdiv (5 * scale) : ℤ) : ℝ) / Sr -
        ((x : ℝ) / Sr + (4 / 5) * (sxr * cyr)) =
        ((((4 * (sinZ x * cosZ y)).fdiv (5 * scale) : ℤ) : ℝ) -
          ((4 * (sinZ x * cosZ y) : ℤ) : ℝ) / (5 * Sr)) / Sr := by
      rw [hsxr, hcyr]
      push_cast
      ring
    rw [hexp, abs_div, abs_of_pos hSpos]
    gcongr
  have hyr_round : |((y + (4 * (cosZ x * sinZ y)).fdiv (5 * scale) : ℤ) : ℝ) / Sr -
      ((y : ℝ) / Sr + (4 / 5) * (cxr * syr))| ≤ 1 / Sr := by
    have herr := abs_fdiv_err_r (a := 4 * (cosZ x * sinZ y)) h5S
    rw [h5Sr] at herr
    have hexp : ((y + (4 * (cosZ x * sinZ y)).fdiv (5 * scale) : ℤ) : ℝ) / Sr -
        ((y : ℝ) / Sr + (4 / 5) * (cxr * syr)) =
        ((((4 * (cosZ x * sinZ y)).fdiv (5 * scale) : ℤ) : ℝ) -
          ((4 * (cosZ x * sinZ y) : ℤ) : ℝ) / (5 * Sr)) / Sr := by
      rw [hcxr, hsyr]
      push_cast
      ring
    rw [hexp, abs_div, abs_of_pos hSpos]
    gcongr
  -- the computed amplification factor dominates the true one
  set Aint : ℤ := cdiv |5 * scale ^ 2 + 4 * (cosZ x * cosZ y)| (5 * scale) +
      cdiv (4 * |sinZ x * sinZ y|) (5 * scale) with hAint
  have c1 : |5 * Sr ^ 2 + 4 * (((cosZ x : ℤ) : ℝ) * ((cosZ y : ℤ) : ℝ))| / (5 * Sr) ≤
      ((cdiv |5 * scale ^ 2 + 4 * (cosZ x * cosZ y)| (5 * scale) : ℤ) : ℝ) := by
    have h := div_le_cdiv_r (a := |5 * scale ^ 2 + 4 * (cosZ x * cosZ y)|) h5S
    rw [h5Sr] at h
    have hcast : ((|5 * scale ^ 2 + 4 * (cosZ x * cosZ y)| : ℤ) : ℝ) =
        |5 * Sr ^ 2 + 4 * (((cosZ x : ℤ) : ℝ) * ((cosZ y : ℤ) : ℝ))| := by
      rw [Int.cast_abs]
      push_cast
      ring_nf
    rw [hcast] at h
    exact h
  have c2 : 4 * |((sinZ x : ℤ) : ℝ) * ((sinZ y : ℤ) : ℝ)| / (5 * Sr) ≤
      ((cdiv (4 * |sinZ x * sinZ y|) (5 * scale) : ℤ) : ℝ) := by
    have h := div_le_cdiv_r (a := 4 * |sinZ x * sinZ y|) h5S
    rw [h5Sr] at h
    have hcast : ((4 * |sinZ x * sinZ y| : ℤ) : ℝ) =
        4 * |((sinZ x : ℤ) : ℝ) * ((sinZ y : ℤ) : ℝ)| := by
      push_cast
      ring
    rw [hcast] at h
    exact h
  have hU : U ≤ (Aint : ℝ) / Sr := by
    have u1 : |1 + (4 / 5) * (cxr * cyr)| =
        |5 * Sr ^ 2 + 4 * (((cosZ x : ℤ) : ℝ) * ((cosZ y : ℤ) : ℝ))| / (5 * Sr ^ 2) := by
      have hval : 1 + (4 / 5) * (cxr * cyr) =
          (5 * Sr ^ 2 + 4 * (((cosZ x : ℤ) : ℝ) * ((cosZ y : ℤ) : ℝ))) / (5 * Sr ^ 2) := by
        rw [hcxr, hcyr]
        field_simp
        ring
      rw [hval, abs_div]
      congr 1
      exact abs_of_nonneg (by positivity)
    have u2 : (4 / 5) * |sxr * syr| =
        4 * |((sinZ x : ℤ) : ℝ) * ((sinZ y : ℤ) : ℝ)| / (5 * Sr ^ 2) := by
      have hval : sxr * syr = (((sinZ x : ℤ) : ℝ) * ((sinZ y : ℤ) : ℝ)) / Sr ^ 2 := by
        rw [hsxr, hsyr]
        ring
      rw [hval, abs_div]
      rw [abs_of_nonneg (by positivity : (0:ℝ) ≤ Sr ^ 2)]
      ring
    have hsplit1 : |5 * Sr ^ 2 + 4 * (((cosZ x : ℤ) : ℝ) * ((cosZ y : ℤ) : ℝ))| / (5 * Sr ^ 2) =
        (|5 * Sr ^ 2 + 4 * (((cosZ x : ℤ) : ℝ) * ((cosZ y : ℤ) : ℝ))| / (5 * Sr)) / Sr := by
      rw [div_div]
      congr 1
      ring
    have hsplit2 : 4 * |((sinZ x : ℤ) : ℝ) * ((sinZ y : ℤ) : ℝ)| / (5 * Sr ^ 2) =
        (4 * |((sinZ x : ℤ) : ℝ) * ((sinZ y : ℤ) : ℝ)| / (5 * Sr)) / Sr := by
      rw [div_div]
      congr 1
      ring
    rw [hUdef, u1, u2, hsplit1, hsplit2, hAint, Int.cast_add, add_div]
    gcongr
  -- the computed radius dominates the estimate
  set dint : ℤ := cdiv (Aint * d) scale + 3 * (cdiv (d * d) scale + epsZ) + 1 with hdint
  have hbound : U * δ + (12 / 5) * (δ ^ 2 + ε) + 1 / Sr ≤ (dint : ℝ) / Sr := by
    have hszpos : (0 : ℤ) < scale := scale_pos
    have t1 : U * δ ≤ ((cdiv (Aint * d) scale : ℤ) : ℝ) / Sr := by
      have s1 : U * δ ≤ ((Aint : ℝ) / Sr) * δ := mul_le_mul_of_nonneg_right hU hδ0
      have s2 : ((Aint : ℝ) / Sr) * δ = ((Aint * d : ℤ) : ℝ) / Sr / Sr := by
        rw [hδdef]
        push_cast
        ring
      have s3 : ((Aint * d : ℤ) : ℝ) / Sr ≤ ((cdiv (Aint * d) scale : ℤ) : ℝ) :=
        div_le_cdiv_r hszpos
      have s4 : ((Aint * d : ℤ) : ℝ) / Sr / Sr ≤ ((cdiv (Aint * d) scale : ℤ) : ℝ) / Sr := by
        gcongr
      linarith [s1, le_of_eq s2, ge_of_eq s2, s4]
    have t2 : δ ^ 2 ≤ ((cdiv (d * d) scale : ℤ) : ℝ) / Sr := by
      have s2 : δ ^ 2 = ((d * d : ℤ) : ℝ) / Sr / Sr := by
        rw [hδdef]
        push_cast
        ring
      have s3 : ((d * d : ℤ) : ℝ) / Sr ≤ ((cdiv (d * d) scale : ℤ) : ℝ) :=
        div_le_cdiv_r hszpos
      have s4 : ((d * d : ℤ) : ℝ) / Sr / Sr ≤ ((cdiv (d * d) scale : ℤ) : ℝ) / Sr := by
        gcongr
      linarith [le_of_eq s2, s4]
    have t3 : ε = ((epsZ : ℤ) : ℝ) / Sr := by
      rw [hεdef, hSr]
      exact eps_cast.symm
    have hexp : (dint : ℝ) / Sr = ((cdiv (Aint * d) scale : ℤ) : ℝ) / Sr +
        3 * (((cdiv (d * d) scale : ℤ) : ℝ) / Sr + ((epsZ : ℤ) : ℝ) / Sr) + 1 / Sr := by
      rw [hdint]
      push_cast
      ring
    have hnn : 0 ≤ δ ^ 2 + ε := by positivity
    have h3 : δ ^ 2 + ε ≤ ((cdiv (d * d) scale : ℤ) : ℝ) / Sr + ((epsZ : ℤ) : ℝ) / Sr := by
      rw [t3] at hnn ⊢
      linarith [t2]
    have hsum : (12 / 5) * (δ ^ 2 + ε) ≤
        3 * (((cdiv (d * d) scale : ℤ) : ℝ) / Sr + ((epsZ : ℤ) : ℝ) / Sr) := by
      nlinarith [hnn, h3]
    rw [hexp]
    linarith [t1, hsum]
  refine ⟨?_, ?_⟩
  · have tri := abs_sub_le (a + (4 / 5) * (Real.sin a * Real.cos b))
      ((x : ℝ) / Sr + (4 / 5) * (sxr * cyr))
      (((x + (4 * (sinZ x * cosZ y)).fdiv (5 * scale) : ℤ) : ℝ) / Sr)
    rw [abs_sub_comm ((x : ℝ) / Sr + (4 / 5) * (sxr * cyr))] at tri
    calc |(a + (4 / 5) * (Real.sin a * Real.cos b)) -
        ((x + (4 * (sinZ x * cosZ y)).fdiv (5 * scale) : ℤ) : ℝ) / Sr|
        ≤ (U * δ + (12 / 5) * (δ ^ 2 + ε)) + 1 / Sr := by linarith [tri, est1, hxr_round]
      _ ≤ (dint : ℝ) / Sr := by linarith [hbound]
  · have tri := abs_sub_le (b + (4 / 5) * (Real.cos a * Real.sin b))
      ((y : ℝ) / Sr + (4 / 5) * (cxr * syr))
      (((y + (4 * (cosZ x * sinZ y)).fdiv (5 * scale) : ℤ) : ℝ) / Sr)
    rw [abs_sub_comm ((y : ℝ) / Sr + (4 / 5) * (cxr * syr))] at tri
    calc |(b + (4 / 5) * (Real.cos a * Real.sin b)) -
        ((y + (4 * (cosZ x * sinZ y)).fdiv (5 * scale) : ℤ) : ℝ) / Sr|
        ≤ (U * δ + (12 / 5) * (δ ^ 2 + ε)) + 1 / Sr := by linarith [tri, est2, hyr_round]
      _ ≤ (dint : ℝ) / Sr := by linarith [hbound]





/-- The real gradient-descent iteration of the spec's optimizer on the
squared-error cost (the parameter-shift gradient evaluates to
`-2 (sin x cos y, cos x sin y)`). -/
noncomputable def rseq : ℕ → ℝ × ℝ
  | 0 => (11 / 1000, 12 / 1000)
  | n + 1 =>
      ((rseq n).1 + (4 / 5) * (Real.sin (rseq n).1 * Real.cos (rseq n).2),
       (rseq n).2 + (4 / 5) * (Real.cos (rseq n).1 * Real.sin (rseq n).2))

lemma cert_dom (h : certC2 = true) {k : ℕ} (hk : k < 21) :
    |(simZ k).1| ≤ 34 * 10 ^ 34 ∧ |(simZ k).2.1| ≤ 34 * 10 ^ 34 ∧
      0 ≤ (simZ k).2.2 ∧ (simZ k).2.2 ≤ 10 ^ 33 := by
  unfold certC2 at h
  rw [Bool.and_eq_true] at h
  have h1 := h.1
  rw [List.all_eq_true] at h1
  have h2 := h1 k (List.mem_range.mpr hk)
  simp only [Bool.and_eq_true, decide_eq_true_eq] at h2
  exact ⟨h2.1.1.1, h2.1.1.2, h2.1.2, h2.2⟩

lemma cert_final (h : certC2 = true) :
    1000 * (cosZ (simZ 20).1 * cosZ (simZ 20).2.1 + scale ^ 2 +
        cdiv (201 * ((simZ 20).2.2 + epsZ) * scale) 100) < scale ^ 2 ∧
      0 ≤ cosZ (simZ 20).1 * cosZ (simZ 20).2.1 + scale ^ 2 +
        cdiv (201 * ((simZ 20).2.2 + epsZ) * scale) 100 := by
  unfold certC2 at h
  rw [Bool.and_eq_true] at h
  have h2 := h.2
  simp only [Bool.and_eq_true, decide_eq_true_eq] at h2
  exact h2

lemma track (h : certC2 = true) :
    ∀ n, n ≤ 20 →
      |(rseq n).1 - ((simZ n).1 : ℝ) / ((scale : ℤ) : ℝ)| ≤
          ((simZ n).2.2 : ℝ) / ((scale : ℤ) : ℝ) ∧
        |(rseq n).2 - ((simZ n).2.1 : ℝ) / ((scale : ℤ) : ℝ)| ≤
          ((simZ n).2.2 : ℝ) / ((scale : ℤ) : ℝ) := by
  intro n
  induction n with
  | zero =>
      intro _
      constructor
      · show |(11 / 1000 : ℝ) - ((11 * 10 ^ 32 : ℤ) : ℝ) / ((scale : ℤ) : ℝ)| ≤
          ((0 : ℤ) : ℝ) / ((scale : ℤ) : ℝ)
        norm_num [scale]
      · show |(12 / 1000 : ℝ) - ((12 * 10 ^ 32 : ℤ) : ℝ) / ((scale : ℤ) : ℝ)| ≤
          ((0 : ℤ) : ℝ) / ((scale : ℤ) : ℝ)
        norm_num [scale]
  | succ n ih =>
      intro hn
      have hdom := cert_dom h (show n < 21 by omega)
      have prev := ih (by omega)
      have hstep := simZ_step_sound prev.1 prev.2 hdom.1 hdom.2.1 hdom.2.2.1 hdom.2.2.2
      have hsim : simZ (n + 1) = stepZ ((simZ n).1, (simZ n).2.1, (simZ n).2.2) := rfl
      rw [hsim]
      exact hstep

/-- Abstract form of the final cost bound: tracking data plus the integer
certificate inequality force the squared-error cost below `1e-6`. -/
lemma cost_from_bounds {a b : ℝ} {x y d : ℤ}
    (htr1 : |a - (x : ℝ) / ((scale : ℤ) : ℝ)| ≤ (d : ℝ) / ((scale : ℤ) : ℝ))
    (htr2 : |b - (y : ℝ) / ((scale : ℤ) : ℝ)| ≤ (d : ℝ) / ((scale : ℤ) : ℝ))
    (hx : |x| ≤ 34 * 10 ^ 34) (hy : |y| ≤ 34 * 10 ^ 34) (hd0 : 0 ≤ d)
    (hfin1 : 1000 * (cosZ x * cosZ y + scale ^ 2 +
        cdiv (201 * (d + epsZ) * scale) 100) < scale ^ 2)
    (hfin2 : 0 ≤ cosZ x * cosZ y + scale ^ 2 + cdiv (201 * (d + epsZ) * scale) 100) :
    (Real.cos a * Real.cos b + 1) ^ 2 < 1 / 1000000 := by
  set Sr : ℝ := ((scale : ℤ) : ℝ) with hSr
  have hSpos : (0 : ℝ) < Sr := scale_pos_r
  have hSne : Sr ≠ 0 := ne_of_gt hSpos
  set δ : ℝ := (d : ℝ) / Sr with hδdef
  set ε : ℝ := 2 / 10 ^ 11 with hεdef
  set cxr : ℝ := ((cosZ x : ℤ) : ℝ) / Sr with hcxr
  set cyr : ℝ := ((cosZ y : ℤ) : ℝ) / Sr with hcyr
  have hδ0 : 0 ≤ δ := by
    rw [hδdef]
    have : (0 : ℝ) ≤ (d : ℝ) := by exact_mod_cast hd0
    positivity
  have hε0 : (0 : ℝ) ≤ ε := by rw [hεdef]; norm_num
  have hcx := cosZ_close hx
  have hcy := cosZ_close hy
  have hca : |Real.cos a - cxr| ≤ δ + ε := by
    have t1 : |Real.cos a - Real.cos ((x : ℝ) / Sr)| ≤ δ := by
      have := abs_cos_sub_cos_le a ((x : ℝ) / Sr)
      exact this.trans htr1
    calc |Real.cos a - cxr| ≤ |Real.cos a - Real.cos ((x : ℝ) / Sr)| +
        |Real.cos ((x : ℝ) / Sr) - cxr| := abs_sub_le _ _ _
      _ ≤ δ + ε := add_le_add t1 hcx
  have hcb : |Real.cos b - cyr| ≤ δ + ε := by
    have t1 : |Real.cos b - Real.cos ((y : ℝ) / Sr)| ≤ δ := by
      have := abs_cos_sub_cos_le b ((y : ℝ) / Sr)
      exact this.trans htr2
    calc |Real.cos b - cyr| ≤ |Real.cos b - Real.cos ((y : ℝ) / Sr)| +
        |Real.cos ((y : ℝ) / Sr) - cyr| := abs_sub_le _ _ _
      _ ≤ δ + ε := add_le_add t1 hcy
  have hcyr_le : |cyr| ≤ 101 / 100 := by
    have h1 := Real.abs_cos_le_one ((y : ℝ) / Sr)
    have h2 := abs_sub_abs_le_abs_sub cyr (Real.cos ((y : ℝ) / Sr))
    rw [abs_sub_comm] at h2
    have : ε ≤ 1 / 100 := by rw [hεdef]; norm_num
    linarith
  have hEdiff : |Real.cos a * Real.cos b - cxr * cyr| ≤ (201 / 100) * (δ + ε) := by
    have hdecomp : Real.cos a * Real.cos b - cxr * cyr =
        Real.cos a * (Real.cos b - cyr) + (Real.cos a - cxr) * cyr := by ring
    rw [hdecomp]
    have p1 : |Real.cos a * (Real.cos b - cyr)| ≤ 1 * (δ + ε) :=
      abs_mul_le (Real.abs_cos_le_one a) hcb
    have p2 : |(Real.cos a - cxr) * cyr| ≤ (δ + ε) * (101 / 100) :=
      abs_mul_le hca hcyr_le
    calc |Real.cos a * (Real.cos b - cyr) + (Real.cos a - cxr) * cyr|
        ≤ |Real.cos a * (Real.cos b - cyr)| + |(Real.cos a - cxr) * cyr| := abs_add _ _
      _ ≤ 1 * (δ + ε) + (δ + ε) * (101 / 100) := add_le_add p1 p2
      _ = (201 / 100) * (δ + ε) := by ring
  set B : ℤ := cosZ x * cosZ y + scale ^ 2 + cdiv (201 * (d + epsZ) * scale) 100 with hBdef
  have hBle : Real.cos a * Real.cos b + 1 ≤ (B : ℝ) / Sr ^ 2 := by
    have he : ε = ((epsZ : ℤ) : ℝ) / Sr := by
      rw [hεdef, hSr]
      exact eps_cast.symm
    have hc : (201 / 100) * (δ + ε) ≤
        ((cdiv (201 * (d + epsZ) * scale) 100 : ℤ) : ℝ) / Sr ^ 2 := by
      have heq : (201 / 100) * (δ + ε) =
          ((201 * (d + epsZ) * scale : ℤ) : ℝ) / 100 / Sr ^ 2 := by
        rw [hδdef, he]
        push_cast
        rw [← hSr]
        field_simp
        ring
      have hcd : ((201 * (d + epsZ) * scale : ℤ) : ℝ) / 100 ≤
          ((cdiv (201 * (d + epsZ) * scale) 100 : ℤ) : ℝ) := by
        have := div_le_cdiv_r (a := 201 * (d + epsZ) * scale) (b := 100) (by norm_num)
        have h100 : ((100 : ℤ) : ℝ) = 100 := by norm_num
        rw [h100] at this
        exact this
      rw [heq]
      gcongr
    have hcxcy : cxr * cyr = ((cosZ x * cosZ y : ℤ) : ℝ) / Sr ^ 2 := by
      rw [hcxr, hcyr]
      push_cast
      ring
    have hone : (1 : ℝ) = ((scale ^ 2 : ℤ) : ℝ) / Sr ^ 2 := by
      push_cast
      rw [← hSr]
      field_simp
    have hE : Real.cos a * Real.cos b ≤ cxr * cyr + (201 / 100) * (δ + ε) := by
      have := abs_le.mp hEdiff
      linarith [this.2]
    calc Real.cos a * Real.cos b + 1
        ≤ cxr * cyr + (201 / 100) * (δ + ε) + 1 := by linarith
      _ ≤ ((cosZ x * cosZ y : ℤ) : ℝ) / Sr ^ 2 +
          ((cdiv (201 * (d + epsZ) * scale) 100 : ℤ) : ℝ) / Sr ^ 2 +
          ((scale ^ 2 : ℤ) : ℝ) / Sr ^ 2 := by
          rw [← hcxcy]
          linarith [hc, le_of_eq hone]
      _ = (B : ℝ) / Sr ^ 2 := by
          rw [hBdef]
          push_cast
          ring
  have hE1nn : 0 ≤ Real.cos a * Real.cos b + 1 := by
    have := abs_mul_le (Real.abs_cos_le_one a) (Real.abs_cos_le_one b)
    have h1 := abs_le.mp this
    linarith [h1.1]
  have hBlt : (B : ℝ) / Sr ^ 2 < 1 / 1000 := by
    have h1 : (1000 : ℝ) * (B : ℝ) < Sr ^ 2 := by
      have hcast : ((1000 * B : ℤ) : ℝ) < ((scale ^ 2 : ℤ) : ℝ) := by
        exact_mod_cast hfin1
      push_cast at hcast
      rw [← hSr] at hcast
      exact hcast
    rw [div_lt_iff₀ (by positivity)]
    linarith
  calc (Real.cos a * Real.cos b + 1) ^ 2 ≤ ((B : ℝ) / Sr ^ 2) ^ 2 := by
        nlinarith [hE1nn, hBle]
    _ < 1 / 1000000 := by
        have hB0 : (0 : ℝ) ≤ (B : ℝ) / Sr ^ 2 := by
          have : (0 : ℝ) ≤ (B : ℝ) := by exact_mod_cast hfin2
          positivity
        nlinarith [hBlt, hB0]

/-- The gradient-descent run passes below `1e-6` at step `20`. -/
lemma cost20_lt (h : certC2 = true) :
    (Real.cos (rseq 20).1 * Real.cos (rseq 20).2 + 1) ^ 2 < 1 / 1000000 := by
  have hdom := cert_dom h (show 20 < 21 by omega)
  have htr := track h 20 le_rfl
  have hfin := cert_final h
  exact cost_from_bounds htr.1 htr.2 hdom.1 hdom.2.1 hdom.2.2.1 hfin.1 hfin.2




/-! ## The spec's gradient-descent optimizer (§4.4) -/

/-- The spec's `gradient` operation: parameter-shift rule with a configurable
shift, combining as `(cost(params+) - cost(params-)) / (2 sin shift)` in each
coordinate. -/
noncomputable def psGradient (g : ℝ × ℝ → ℝ) (shift : ℝ) (p : ℝ × ℝ) : ℝ × ℝ :=
  ((g (p.1 + shift, p.2) - g (p.1 - shift, p.2)) / (2 * Real.sin shift),
   (g (p.1, p.2 + shift) - g (p.1, p.2 - shift)) / (2 * Real.sin shift))

/-- The spec's `step` operation: `params - learning_rate * gradient`, with the
default shift `π/2`. -/
noncomputable def gdStep (g : ℝ × ℝ → ℝ) (lr : ℝ) (p : ℝ × ℝ) : ℝ × ℝ :=
  (p.1 - lr * (psGradient g (Real.pi / 2) p).1,
   p.2 - lr * (psGradient g (Real.pi / 2) p).2)

/-- The squared-error cost `(circuit_expectation(params) - (-1))²` of the
qubit-rotation optimization scenario. -/
noncomputable def squaredCost (p : ℝ × ℝ) : ℝ := (circuit p - (-1)) ^ 2

/-- The optimizer loop: iterate `gdStep` from the initial parameters. -/
noncomputable def optimizeSeq (g : ℝ × ℝ → ℝ) (lr : ℝ) (p0 : ℝ × ℝ) : ℕ → ℝ × ℝ
  | 0 => p0
  | n + 1 => gdStep g lr (optimizeSeq g lr p0 n)

lemma circuit_pair (p : ℝ × ℝ) : circuit p = Real.cos p.1 * Real.cos p.2 :=
  circuit_eq_cos_cos p.1 p.2

/-- The parameter-shift gradient of the squared-error cost in closed form. -/
lemma psGradient_squaredCost (p : ℝ × ℝ) :
    psGradient squaredCost (Real.pi / 2) p =
      (-2 * (Real.sin p.1 * Real.cos p.2), -2 * (Real.cos p.1 * Real.sin p.2)) := by
  unfold psGradient squaredCost
  simp only [circuit_pair, Real.cos_add_pi_div_two, Real.cos_sub_pi_div_two,
    Real.sin_pi_div_two]
  have : (2 : ℝ) * 1 = 2 := by norm_num
  rw [this]
  apply Prod.ext
  · show (((-Real.sin p.1) * Real.cos p.2 - -1) ^ 2 -
      (Real.sin p.1 * Real.cos p.2 - -1) ^ 2) / 2 = -2 * (Real.sin p.1 * Real.cos p.2)
    ring
  · show ((Real.cos p.1 * (-Real.sin p.2) - -1) ^ 2 -
      (Real.cos p.1 * Real.sin p.2 - -1) ^ 2) / 2 = -2 * (Real.cos p.1 * Real.sin p.2)
    ring

/-- The optimizer run of the scenario coincides with the certified reference
iteration `rseq`. -/
lemma optimizeSeq_eq_rseq (n : ℕ) :
    optimizeSeq squaredCost (0.4 : ℝ) ((0.011 : ℝ), (0.012 : ℝ)) n = rseq n := by
  induction n with
  | zero =>
      show ((0.011 : ℝ), (0.012 : ℝ)) = rseq 0
      unfold rseq
      norm_num
  | succ n ih =>
      have hr : rseq (n + 1) =
          ((rseq n).1 + (4 / 5) * (Real.sin (rseq n).1 * Real.cos (rseq n).2),
           (rseq n).2 + (4 / 5) * (Real.cos (rseq n).1 * Real.sin (rseq n).2)) := rfl
      show gdStep squaredCost (0.4 : ℝ) (optimizeSeq squaredCost _ _ n) = rseq (n + 1)
      rw [ih, hr]
      unfold gdStep
      rw [psGradient_squaredCost]
      have h04 : (0.4 : ℝ) = 2 / 5 := by norm_num
      apply Prod.ext
      · show (rseq n).1 - 0.4 * (-2 * (Real.sin (rseq n).1 * Real.cos (rseq n).2)) =
          (rseq n).1 + 4 / 5 * (Real.sin (rseq n).1 * Real.cos (rseq n).2)
        rw [h04]
        ring
      · show (rseq n).2 - 0.4 * (-2 * (Real.cos (rseq n).1 * Real.sin (rseq n).2)) =
          (rseq n).2 + 4 / 5 * (Real.cos (rseq n).1 * Real.sin (rseq n).2)
        rw [h04]
        ring

set_option maxRecDepth 1000000 in
lemma certC2_true : certC2 = true := by decide


/-! ## Claim theorems: qubit rotation (C1) and its optimization (C2) -/

/-- Numeric certificate for the value of the circuit at `(0.54, 0.12)`. -/
def certC1 : Bool :=
  decide (|cosZ (54 * 10 ^ 33) * cosZ (12 * 10 ^ 33) * 10000 - 8515 * scale ^ 2| ≤
    9 * scale ^ 2)

set_option maxRecDepth 1000000 in
lemma certC1_true : certC1 = true := by decide

/-- Product of two certified cosine approximations at exact rational points. -/
lemma cos_prod_close {x y : ℤ} (hx : |x| ≤ 34 * 10 ^ 34) (hy : |y| ≤ 34 * 10 ^ 34) :
    |Real.cos ((x : ℝ) / ((scale : ℤ) : ℝ)) * Real.cos ((y : ℝ) / ((scale : ℤ) : ℝ)) -
        ((cosZ x : ℤ) : ℝ) / ((scale : ℤ) : ℝ) *
          (((cosZ y : ℤ) : ℝ) / ((scale : ℤ) : ℝ))| ≤ 5 / 10 ^ 11 := by
  set Sr : ℝ := ((scale : ℤ) : ℝ) with hSr
  set cxr : ℝ := ((cosZ x : ℤ) : ℝ) / Sr with hcxr
  set cyr : ℝ := ((cosZ y : ℤ) : ℝ) / Sr with hcyr
  have hcx := cosZ_close hx
  have hcy := cosZ_close hy
  have hcyr_le : |cyr| ≤ 101 / 100 := by
    have h1 := Real.abs_cos_le_one ((y : ℝ) / Sr)
    have h2 := abs_sub_abs_le_abs_sub cyr (Real.cos ((y : ℝ) / Sr))
    rw [abs_sub_comm] at h2
    linarith
  have hdecomp : Real.cos ((x : ℝ) / Sr) * Real.cos ((y : ℝ) / Sr) - cxr * cyr =
      Real.cos ((x : ℝ) / Sr) * (Real.cos ((y : ℝ) / Sr) - cyr) +
        (Real.cos ((x : ℝ) / Sr) - cxr) * cyr := by ring
  rw [hdecomp]
  have p1 : |Real.cos ((x : ℝ) / Sr) * (Real.cos ((y : ℝ) / Sr) - cyr)| ≤
      1 * (2 / 10 ^ 11) := abs_mul_le (Real.abs_cos_le_one _) hcy
  have p2 : |(Real.cos ((x : ℝ) / Sr) - cxr) * cyr| ≤ (2 / 10 ^ 11) * (101 / 100) :=
    abs_mul_le hcx hcyr_le
  calc |Real.cos ((x : ℝ) / Sr) * (Real.cos ((y : ℝ) / Sr) - cyr) +
      (Real.cos ((x : ℝ) / Sr) - cxr) * cyr|
      ≤ |Real.cos ((x : ℝ) / Sr) * (Real.cos ((y : ℝ) / Sr) - cyr)| +
        |(Real.cos ((x : ℝ) / Sr) - cxr) * cyr| := abs_add _ _
    _ ≤ 1 * (2 / 10 ^ 11) + (2 / 10 ^ 11) * (101 / 100) := add_le_add p1 p2
    _ ≤ 5 / 10 ^ 11 := by norm_num

/-- Value bound in abstract form: the integer inequality transfers to the
scaled real values. -/
lemma scaled_value_close {u v : ℤ}
    (h : |u * v * 10000 - 8515 * scale ^ 2| ≤ 9 * scale ^ 2) :
    |(u : ℝ) / ((scale : ℤ) : ℝ) * ((v : ℝ) / ((scale : ℤ) : ℝ)) - 0.8515| ≤ 9 / 10000 := by
  set Sr : ℝ := ((scale : ℤ) : ℝ) with hSr
  have hSpos : (0 : ℝ) < Sr := scale_pos_r
  have hSne : Sr ≠ 0 := ne_of_gt hSpos
  have hpos : (0 : ℝ) < 10000 * Sr ^ 2 := by
    have := pow_pos hSpos 2
    linarith
  have hcast : |((u * v * 10000 - 8515 * scale ^ 2 : ℤ) : ℝ)| ≤
      ((9 * scale ^ 2 : ℤ) : ℝ) := by
    rw [← Int.cast_abs]
    exact_mod_cast h
  push_cast at hcast
  rw [← hSr] at hcast
  have hexp : (u : ℝ) / Sr * ((v : ℝ) / Sr) - 0.8515 =
      ((u : ℝ) * (v : ℝ) * 10000 - 8515 * Sr ^ 2) / (10000 * Sr ^ 2) := by
    field_simp
    ring
  rw [hexp, abs_div, abs_of_pos hpos]
  rw [div_le_iff₀ hpos]
  calc |(u : ℝ) * (v : ℝ) * 10000 - 8515 * Sr ^ 2| ≤ 9 * Sr ^ 2 := hcast
    _ = 9 / 10000 * (10000 * Sr ^ 2) := by ring

/-- C1: for every pair of angles the qubit-rotation circuit's `⟨Z⟩` equals
`cos φ₁ · cos φ₂`, and at `(0.54, 0.12)` the value is `0.8515` to within
`1e-3`. -/
theorem C1_qubit_rotation_expectation :
    (∀ φ₁ φ₂ : ℝ, circuit (φ₁, φ₂) = Real.cos φ₁ * Real.cos φ₂) ∧
      |circuit (0.54, 0.12) - 0.8515| < 1 / 1000 := by
  refine ⟨circuit_eq_cos_cos, ?_⟩
  set Sr : ℝ := ((scale : ℤ) : ℝ) with hSr
  have hSval : Sr = 10 ^ 35 := by rw [hSr]; norm_num [scale]
  have hx : ((54 * 10 ^ 33 : ℤ) : ℝ) / Sr = 0.54 := by
    rw [hSval]; norm_num
  have hy : ((12 * 10 ^ 33 : ℤ) : ℝ) / Sr = 0.12 := by
    rw [hSval]; norm_num
  have hprod := cos_prod_close (x := 54 * 10 ^ 33) (y := 12 * 10 ^ 33)
    (by norm_num) (by norm_num)
  have hcert : |cosZ (54 * 10 ^ 33) * cosZ (12 * 10 ^ 33) * 10000 -
      8515 * scale ^ 2| ≤ 9 * scale ^ 2 := by
    have h := certC1_true
    unfold certC1 at h
    rwa [decide_eq_true_eq] at h
  have hval := scaled_value_close hcert
  rw [← hSr, hx, hy] at hprod
  rw [circuit_eq_cos_cos]
  rw [← hSr] at hval
  calc |Real.cos 0.54 * Real.cos 0.12 - 0.8515|
      ≤ |Real.cos 0.54 * Real.cos 0.12 -
          ((cosZ (54 * 10 ^ 33) : ℤ) : ℝ) / Sr *
            (((cosZ (12 * 10 ^ 33) : ℤ) : ℝ) / Sr)| +
        |((cosZ (54 * 10 ^ 33) : ℤ) : ℝ) / Sr *
            (((cosZ (12 * 10 ^ 33) : ℤ) : ℝ) / Sr) - 0.8515| := abs_sub_le _ _ _
    _ ≤ 5 / 10 ^ 11 + 9 / 10000 := add_le_add hprod hval
    _ < 1 / 1000 := by norm_num

/-- C2: gradient descent (spec §4.4: parameter-shift gradient with shift `π/2`,
combined as `(cost₊ - cost₋)/(2 sin shift)`; step `params - lr·gradient`) on
the cost `(circuit_expectation(params) - (-1))²`, started from
`params = (0.011, 0.012)` with learning rate `0.4`, reaches cost `< 1e-6`
within `100` steps. -/
theorem C2_gradient_descent_converges :
    ∃ k ≤ 100,
      squaredCost (optimizeSeq squaredCost (0.4 : ℝ) ((0.011 : ℝ), (0.012 : ℝ)) k) <
        1 / 1000000 := by
  refine ⟨20, by norm_num, ?_⟩
  rw [optimizeSeq_eq_rseq]
  have h20 := cost20_lt certC2_true
  unfold squaredCost
  rw [circuit_pair]
  calc (Real.cos (rseq 20).1 * Real.cos (rseq 20).2 - -1) ^ 2
      = (Real.cos (rseq 20).1 * Real.cos (rseq 20).2 + 1) ^ 2 := by ring
    _ < 1 / 1000000 := h20


/-! ## Claim C4: parameter-shift gradient vs. central finite differences -/

/-- The spec's finite-difference fallback gradient: evaluate at `params ± ε`
and combine as `(cost(params+) - cost(params-)) / (2ε)`. -/
noncomputable def fdGradient (g : ℝ × ℝ → ℝ) (eps : ℝ) (p : ℝ × ℝ) : ℝ × ℝ :=
  ((g (p.1 + eps, p.2) - g (p.1 - eps, p.2)) / (2 * eps),
   (g (p.1, p.2 + eps) - g (p.1, p.2 - eps)) / (2 * eps))

/-- Closed form of the parameter-shift gradient of the rotation circuit. -/
lemma psGradient_circuit (p : ℝ × ℝ) :
    psGradient circuit (Real.pi / 2) p =
      (-(Real.sin p.1 * Real.cos p.2), -(Real.cos p.1 * Real.sin p.2)) := by
  unfold psGradient
  simp only [circuit_pair, Real.cos_add_pi_div_two, Real.cos_sub_pi_div_two,
    Real.sin_pi_div_two]
  apply Prod.ext
  · show ((-Real.sin p.1) * Real.cos p.2 - Real.sin p.1 * Real.cos p.2) / (2 * 1) =
      -(Real.sin p.1 * Real.cos p.2)
    ring
  · show (Real.cos p.1 * (-Real.sin p.2) - Real.cos p.1 * Real.sin p.2) / (2 * 1) =
      -(Real.cos p.1 * Real.sin p.2)
    ring

/-- Closed form of the central finite-difference gradient of the circuit. -/
lemma fdGradient_circuit (p : ℝ × ℝ) {eps : ℝ} (heps : eps ≠ 0) :
    fdGradient circuit eps p =
      (-(Real.sin p.1 * Real.cos p.2) * (Real.sin eps / eps),
       -(Real.cos p.1 * Real.sin p.2) * (Real.sin eps / eps)) := by
  unfold fdGradient
  simp only [circuit_pair]
  have h1 : Real.cos (p.1 + eps) - Real.cos (p.1 - eps) =
      -2 * Real.sin p.1 * Real.sin eps := by
    rw [Real.cos_sub_cos]
    have e1 : (p.1 + eps + (p.1 - eps)) / 2 = p.1 := by ring
    have e2 : (p.1 + eps - (p.1 - eps)) / 2 = eps := by ring
    rw [e1, e2]
  have h2 : Real.cos (p.2 + eps) - Real.cos (p.2 - eps) =
      -2 * Real.sin p.2 * Real.sin eps := by
    rw [Real.cos_sub_cos]
    have e1 : (p.2 + eps + (p.2 - eps)) / 2 = p.2 := by ring
    have e2 : (p.2 + eps - (p.2 - eps)) / 2 = eps := by ring
    rw [e1, e2]
  apply Prod.ext
  · show (Real.cos (p.1 + eps) * Real.cos p.2 - Real.cos (p.1 - eps) * Real.cos p.2) /
        (2 * eps) = -(Real.sin p.1 * Real.cos p.2) * (Real.sin eps / eps)
    rw [show Real.cos (p.1 + eps) * Real.cos p.2 - Real.cos (p.1 - eps) * Real.cos p.2 =
        (Real.cos (p.1 + eps) - Real.cos (p.1 - eps)) * Real.cos p.2 from by ring, h1]
    field_simp
    ring
  · show (Real.cos p.1 * Real.cos (p.2 + eps) - Real.cos p.1 * Real.cos (p.2 - eps)) /
        (2 * eps) = -(Real.cos p.1 * Real.sin p.2) * (Real.sin eps / eps)
    rw [show Real.cos p.1 * Real.cos (p.2 + eps) - Real.cos p.1 * Real.cos (p.2 - eps) =
        (Real.cos (p.2 + eps) - Real.cos (p.2 - eps)) * Real.cos p.1 from by ring, h2]
    field_simp
    ring

/-- C4: for each parameter of the single-qubit rotation circuit, the
parameter-shift gradient (shift `π/2`) agrees with the central
finite-difference estimate to within `1e-4` for every step size
`0 < ε ≤ 1/50`. -/
theorem C4_parameter_shift_matches_finite_difference (p : ℝ × ℝ) (eps : ℝ)
    (h0 : 0 < eps) (h1 : eps ≤ 1 / 50) :
    |(psGradient circuit (Real.pi / 2) p).1 - (fdGradient circuit eps p).1| ≤ 1 / 10 ^ 4 ∧
    |(psGradient circuit (Real.pi / 2) p).2 - (fdGradient circuit eps p).2| ≤ 1 / 10 ^ 4 := by
  have hne : eps ≠ 0 := ne_of_gt h0
  rw [psGradient_circuit, fdGradient_circuit p hne]
  have hsl : |Real.sin eps - eps| ≤ eps ^ 3 / 4 := by
    have : |eps| ≤ 1 := by
      rw [abs_of_pos h0]
      linarith
    have := sin_lin this
    rwa [abs_of_pos h0] at this
  have hratio : |1 - Real.sin eps / eps| ≤ eps ^ 2 / 4 := by
    have hexp : 1 - Real.sin eps / eps = (eps - Real.sin eps) / eps := by
      field_simp
    rw [hexp, abs_div, abs_of_pos h0, div_le_iff₀ h0, abs_sub_comm]
    calc |Real.sin eps - eps| ≤ eps ^ 3 / 4 := hsl
      _ = eps ^ 2 / 4 * eps := by ring
  have hquad : eps ^ 2 / 4 ≤ 1 / 10 ^ 4 := by nlinarith
  constructor
  · have key : -(Real.sin p.1 * Real.cos p.2) -
        -(Real.sin p.1 * Real.cos p.2) * (Real.sin eps / eps) =
        -(Real.sin p.1 * Real.cos p.2) * (1 - Real.sin eps / eps) := by ring
    rw [key]
    calc |(-(Real.sin p.1 * Real.cos p.2)) * (1 - Real.sin eps / eps)|
        ≤ 1 * (eps ^ 2 / 4) := by
          apply abs_mul_le _ hratio
          rw [abs_neg]
          exact abs_mul_le (Real.abs_sin_le_one p.1) (Real.abs_cos_le_one p.2)
            |>.trans (by norm_num)
      _ ≤ 1 / 10 ^ 4 := by linarith
  · have key : -(Real.cos p.1 * Real.sin p.2) -
        -(Real.cos p.1 * Real.sin p.2) * (Real.sin eps / eps) =
        -(Real.cos p.1 * Real.sin p.2) * (1 - Real.sin eps / eps) := by ring
    rw [key]
    calc |(-(Real.cos p.1 * Real.sin p.2)) * (1 - Real.sin eps / eps)|
        ≤ 1 * (eps ^ 2 / 4) := by
          apply abs_mul_le _ hratio
          rw [abs_neg]
          exact abs_mul_le (Real.abs_cos_le_one p.1) (Real.abs_sin_le_one p.2)
            |>.trans (by norm_num)
      _ ≤ 1 / 10 ^ 4 := by linarith

/-- Witness for C4 at the notebook's parameter point `(0.54, 0.12)` with step
size `ε = 1/100`. -/
theorem C4_witness :
    (0 : ℝ) < 1 / 100 ∧ (1 / 100 : ℝ) ≤ 1 / 50 ∧
      (|(psGradient circuit (Real.pi / 2) ((0.54 : ℝ), (0.12 : ℝ))).1 -
          (fdGradient circuit (1 / 100) ((0.54 : ℝ), (0.12 : ℝ))).1| ≤ 1 / 10 ^ 4 ∧
        |(psGradient circuit (Real.pi / 2) ((0.54 : ℝ), (0.12 : ℝ))).2 -
          (fdGradient circuit (1 / 100) ((0.54 : ℝ), (0.12 : ℝ))).2| ≤ 1 / 10 ^ 4) :=
  ⟨by norm_num, by norm_num,
    C4_parameter_shift_matches_finite_difference ((0.54 : ℝ), (0.12 : ℝ)) (1 / 100)
      (by norm_num) (by norm_num)⟩


/-! ## Two-qubit state engine

The noisy-circuits and JAX notebooks use two-qubit circuits.  The basis
index is a pair `(qubit 0, qubit 1)`; one-qubit gates are embedded with a
Kronecker product.  The mixed-state mode of spec §4.1 represents states as
density matrices, applies gates as `U ρ U†` and Kraus channels as
`ρ ↦ Σ K ρ K†`, and evaluates observables as `Re tr(O ρ)` (spec §4.2). -/

/-- Two-qubit computational-basis index: `(qubit 0, qubit 1)`. -/
abbrev Q2 := Fin 2 × Fin 2

/-- The Hadamard gate. -/
noncomputable def Hgate : Matrix (Fin 2) (Fin 2) ℂ :=
  (((Real.sqrt 2)⁻¹ : ℝ) : ℂ) • !![1, 1; 1, -1]

/-- CNOT with control qubit 0 and target qubit 1: `|c,t⟩ ↦ |c, t ⊕ c⟩`. -/
noncomputable def CNOTm : Matrix Q2 Q2 ℂ :=
  Matrix.of fun i j => if i.1 = j.1 ∧ i.2 = j.2 + j.1 then 1 else 0

/-- The initial two-qubit state `|00⟩`. -/
noncomputable def ket00 : Q2 → ℂ := fun i => if i = (0, 0) then 1 else 0

/-- Pauli `Z` on qubit 0 (identity on qubit 1). -/
noncomputable def Zq0 : Matrix Q2 Q2 ℂ := PauliZ ⊗ₖ (1 : Matrix (Fin 2) (Fin 2) ℂ)

/-- The `Z ⊗ Z` observable. -/
noncomputable def ZZobs : Matrix Q2 Q2 ℂ := PauliZ ⊗ₖ PauliZ

/-- Density matrix `|ψ⟩⟨ψ|` of a pure state. -/
noncomputable def pureDM {n : Type*} (ψ : n → ℂ) : Matrix n n ℂ :=
  Matrix.of fun i j => ψ i * star (ψ j)

/-- Mixed-state gate application of spec §4.1: `ρ ↦ U ρ U†`. -/
noncomputable def applyGateDM {n : Type*} [Fintype n] (U ρ : Matrix n n ℂ) : Matrix n n ℂ :=
  U * ρ * Uᴴ

/-- Kraus-channel application of spec §4.1: `ρ ↦ Σ K ρ K†`. -/
noncomputable def applyChannel {n : Type*} [Fintype n] (Ks : List (Matrix n n ℂ))
    (ρ : Matrix n n ℂ) : Matrix n n ℂ :=
  (Ks.map fun K => K * ρ * Kᴴ).sum

/-- Mixed-state expectation of spec §4.2: `Re tr(O ρ)`. -/
noncomputable def expObs {n : Type*} [Fintype n] (O ρ : Matrix n n ℂ) : ℝ :=
  (O * ρ).trace.re

/-- Kraus operators of the bit-flip channel with flip probability `p`, as
documented in `noisy_circuits.ipynb`: `K₀ = √(1-p)·I`, `K₁ = √p·X`. -/
noncomputable def bitFlipKraus (p : ℝ) : List (Matrix (Fin 2) (Fin 2) ℂ) :=
  [((Real.sqrt (1 - p) : ℝ) : ℂ) • 1, ((Real.sqrt p : ℝ) : ℂ) • PauliX]

/-- Applying a gate to a pure density matrix is applying it to the vector. -/
lemma applyGateDM_pure {n : Type*} [Fintype n] (U : Matrix n n ℂ) (ψ : n → ℂ) :
    applyGateDM U (pureDM ψ) = pureDM (U.mulVec ψ) := by
  ext i j
  simp only [applyGateDM, pureDM, Matrix.mul_apply, Matrix.of_apply,
    Matrix.conjTranspose_apply, Matrix.mulVec, Matrix.dotProduct, star_sum, star_mul',
    Finset.sum_mul, Finset.mul_sum]
  refine Finset.sum_congr rfl fun k _ => Finset.sum_congr rfl fun l _ => by ring

/-- On pure density matrices the mixed-state evaluator agrees with the
pure-state evaluator. -/
lemma expObs_pure {n : Type*} [Fintype n] (O : Matrix n n ℂ) (ψ : n → ℂ) :
    expObs O (pureDM ψ) = expval O ψ := by
  have h : (O * pureDM ψ).trace = star ψ ⬝ᵥ O.mulVec ψ := by
    simp only [Matrix.trace, Matrix.diag, Matrix.mul_apply, pureDM, Matrix.of_apply,
      Matrix.dotProduct, Matrix.mulVec, Pi.star_apply, Finset.mul_sum]
    refine Finset.sum_congr rfl fun k _ => Finset.sum_congr rfl fun l _ => by ring
  rw [expObs, expval, h]

/-- The Bell state produced by `H` on qubit 0 then `CNOT(0,1)` from `|00⟩`. -/
lemma bell_vec :
    applyGateVec CNOTm (applyGateVec (Hgate ⊗ₖ (1 : Matrix (Fin 2) (Fin 2) ℂ)) ket00) =
      fun i => if i.1 = i.2 then (((Real.sqrt 2)⁻¹ : ℝ) : ℂ) else 0 := by
  have h1 : applyGateVec (Hgate ⊗ₖ (1 : Matrix (Fin 2) (Fin 2) ℂ)) ket00 =
      fun i => if i.2 = 0 then (((Real.sqrt 2)⁻¹ : ℝ) : ℂ) else 0 := by
    funext i
    rcases i with ⟨a, b⟩
    fin_cases a <;> fin_cases b <;>
      simp [applyGateVec, Hgate, ket00, Matrix.mulVec, Matrix.dotProduct,
        Fintype.sum_prod_type, Fin.sum_univ_two, Matrix.kroneckerMap_apply,
        Matrix.one_apply, Prod.ext_iff]
  rw [h1]
  funext i
  rcases i with ⟨a, b⟩
  fin_cases a <;> fin_cases b <;>
    simp [applyGateVec, CNOTm, Matrix.mulVec, Matrix.dotProduct,
      Fintype.sum_prod_type, Fin.sum_univ_two, Prod.ext_iff]

/-- Square of the inverse square root of two. -/
lemma sqrt2_inv_sq : ((Real.sqrt 2)⁻¹ : ℝ) * (Real.sqrt 2)⁻¹ = 1 / 2 := by
  rw [← mul_inv, Real.mul_self_sqrt (by norm_num : (0:ℝ) ≤ 2)]
  norm_num

/-- The Bell state is perfectly correlated: `⟨Z⊗Z⟩ = 1`. -/
lemma bell_ZZ : expval ZZobs
    (applyGateVec CNOTm (applyGateVec (Hgate ⊗ₖ (1 : Matrix (Fin 2) (Fin 2) ℂ)) ket00)) = 1 := by
  rw [bell_vec]
  simp only [expval, ZZobs, PauliZ, Matrix.mulVec, Matrix.dotProduct,
    Fintype.sum_prod_type, Fin.sum_univ_two, Matrix.kroneckerMap_apply, Pi.star_apply]
  norm_num [Complex.ext_iff, ← Complex.ofReal_mul, sqrt2_inv_sq]
  nlinarith [Real.mul_self_sqrt (show (0:ℝ) ≤ 2 by norm_num)]

/-- C5: the two-qubit Bell-state circuit (Hadamard on qubit 0, then
`CNOT(0,1)`) applied to `|00⟩` on the noiseless pure-state simulation gives
expectation value `⟨Z⊗Z⟩ = 1` exactly (hence within `1e-9`). -/
theorem C5_bell_state_zz_expectation :
    expval ZZobs
      (applyGateVec CNOTm
        (applyGateVec (Hgate ⊗ₖ (1 : Matrix (Fin 2) (Fin 2) ℂ)) ket00)) = 1 :=
  bell_ZZ

/-- The embedded `X` on qubit 0 is Hermitian. -/
lemma X0_herm : (PauliX ⊗ₖ (1 : Matrix (Fin 2) (Fin 2) ℂ))ᴴ = PauliX ⊗ₖ 1 := by
  ext i j
  rcases i with ⟨a, b⟩
  rcases j with ⟨c, d⟩
  fin_cases a <;> fin_cases b <;> fin_cases c <;> fin_cases d <;>
    simp [PauliX, Matrix.conjTranspose_apply, Matrix.kroneckerMap_apply, Matrix.one_apply]

/-- The embedded `X` on qubit 1 is Hermitian. -/
lemma X1_herm : ((1 : Matrix (Fin 2) (Fin 2) ℂ) ⊗ₖ PauliX)ᴴ = 1 ⊗ₖ PauliX := by
  ext i j
  rcases i with ⟨a, b⟩
  rcases j with ⟨c, d⟩
  fin_cases a <;> fin_cases b <;> fin_cases c <;> fin_cases d <;>
    simp [PauliX, Matrix.conjTranspose_apply, Matrix.kroneckerMap_apply, Matrix.one_apply]

/-- Conjugating `Z⊗Z` by `X` on qubit 0 flips its sign. -/
lemma X0_ZZ_X0 :
    (PauliX ⊗ₖ (1 : Matrix (Fin 2) (Fin 2) ℂ)) * ZZobs * (PauliX ⊗ₖ 1) = -ZZobs := by
  ext i j
  rcases i with ⟨a, b⟩
  rcases j with ⟨c, d⟩
  fin_cases a <;> fin_cases b <;> fin_cases c <;> fin_cases d <;>
    simp [ZZobs, PauliX, PauliZ, Matrix.mul_apply, Fintype.sum_prod_type,
      Fin.sum_univ_two, Matrix.kroneckerMap_apply, Matrix.one_apply]

/-- Conjugating `Z⊗Z` by `X` on qubit 1 flips its sign. -/
lemma X1_ZZ_X1 :
    ((1 : Matrix (Fin 2) (Fin 2) ℂ) ⊗ₖ PauliX) * ZZobs * (1 ⊗ₖ PauliX) = -ZZobs := by
  ext i j
  rcases i with ⟨a, b⟩
  rcases j with ⟨c, d⟩
  fin_cases a <;> fin_cases b <;> fin_cases c <;> fin_cases d <;>
    simp [ZZobs, PauliX, PauliZ, Matrix.mul_apply, Fintype.sum_prod_type,
      Fin.sum_univ_two, Matrix.kroneckerMap_apply, Matrix.one_apply]

/-- Cyclicity of the trace in the form needed for Kraus conjugation. -/
lemma trace_conj_cycle {n : Type*} [Fintype n] (O W ρ : Matrix n n ℂ) :
    (O * (W * ρ * W)).trace = (W * O * W * ρ).trace := by
  rw [Matrix.trace_mul_comm O (W * ρ * W), Matrix.mul_assoc (W * ρ) W O,
    Matrix.trace_mul_comm (W * ρ) (W * O), ← Matrix.mul_assoc (W * O) W ρ]

/-- A bit-flip-style channel `{√(1-p)·I, √p·W}` with `W` Hermitian and
`W (Z⊗Z) W = -(Z⊗Z)` scales `⟨Z⊗Z⟩` by `1-2p`. -/
lemma expObs_flip_channel {W : Matrix Q2 Q2 ℂ} (hW : Wᴴ = W)
    (hflip : W * ZZobs * W = -ZZobs) {p : ℝ} (hp0 : 0 ≤ p) (hp1 : p ≤ 1)
    (ρ : Matrix Q2 Q2 ℂ) :
    expObs ZZobs (applyChannel
      [((Real.sqrt (1 - p) : ℝ) : ℂ) • 1, ((Real.sqrt p : ℝ) : ℂ) • W] ρ) =
      (1 - 2 * p) * expObs ZZobs ρ := by
  have h1p : Real.sqrt (1 - p) * Real.sqrt (1 - p) = 1 - p :=
    Real.mul_self_sqrt (by linarith)
  have hpp : Real.sqrt p * Real.sqrt p = p := Real.mul_self_sqrt hp0
  have hc : (((Real.sqrt (1 - p) : ℝ) : ℂ) • (1 : Matrix Q2 Q2 ℂ)) * ρ *
      (((Real.sqrt (1 - p) : ℝ) : ℂ) • (1 : Matrix Q2 Q2 ℂ))ᴴ = (1 - p) • ρ := by
    rw [Matrix.conjTranspose_smul, Matrix.conjTranspose_one]
    simp [Matrix.smul_mul, Matrix.mul_smul, smul_smul, Complex.star_def,
      Complex.conj_ofReal, ← Complex.ofReal_mul, h1p]
  have hx : (((Real.sqrt p : ℝ) : ℂ) • W) * ρ * (((Real.sqrt p : ℝ) : ℂ) • W)ᴴ =
      p • (W * ρ * W) := by
    rw [Matrix.conjTranspose_smul, hW]
    simp [Matrix.smul_mul, Matrix.mul_smul, smul_smul, Complex.star_def,
      Complex.conj_ofReal, ← Complex.ofReal_mul, hpp]
  simp only [applyChannel, List.map_cons, List.map_nil, List.sum_cons, List.sum_nil, add_zero]
  rw [hc, hx, expObs, expObs, Matrix.mul_add, Matrix.mul_smul, Matrix.mul_smul,
    Matrix.trace_add, Matrix.trace_smul, Matrix.trace_smul, trace_conj_cycle ZZobs W ρ, hflip]
  simp only [Matrix.neg_mul, Matrix.trace_neg, smul_neg, Complex.add_re, Complex.neg_re,
    Complex.smul_re, smul_eq_mul]
  ring

/-- The bit-flip Kraus operators embedded on qubit 0. -/
lemma bitFlip_q0 (p : ℝ) :
    (bitFlipKraus p).map (fun K => K ⊗ₖ (1 : Matrix (Fin 2) (Fin 2) ℂ)) =
      [((Real.sqrt (1 - p) : ℝ) : ℂ) • 1, ((Real.sqrt p : ℝ) : ℂ) • (PauliX ⊗ₖ 1)] := by
  simp [bitFlipKraus, Matrix.smul_kronecker, Matrix.one_kronecker_one]

/-- The bit-flip Kraus operators embedded on qubit 1. -/
lemma bitFlip_q1 (p : ℝ) :
    (bitFlipKraus p).map (fun K => (1 : Matrix (Fin 2) (Fin 2) ℂ) ⊗ₖ K) =
      [((Real.sqrt (1 - p) : ℝ) : ℂ) • 1, ((Real.sqrt p : ℝ) : ℂ) • (1 ⊗ₖ PauliX)] := by
  simp [bitFlipKraus, Matrix.kronecker_smul, Matrix.one_kronecker_one]

/-- C3: applying the bit-flip channel with flip probability `p ∈ [0,1]` to
each qubit of a Bell state gives `⟨Z⊗Z⟩ = (1-2p)²`, and at `p = 1/5` that
value is within `1e-3` of `0.36` (it is exactly `0.36`). -/
theorem C3_bitflip_channel_expectation :
    (∀ p : ℝ, 0 ≤ p → p ≤ 1 →
      expObs ZZobs
        (applyChannel ((bitFlipKraus p).map fun K => (1 : Matrix (Fin 2) (Fin 2) ℂ) ⊗ₖ K)
          (applyChannel ((bitFlipKraus p).map fun K => K ⊗ₖ (1 : Matrix (Fin 2) (Fin 2) ℂ))
            (applyGateDM CNOTm (applyGateDM (Hgate ⊗ₖ 1) (pureDM ket00))))) =
        (1 - 2 * p) ^ 2) ∧
    |(1 - 2 * (1 / 5 : ℝ)) ^ 2 - 0.36| < 1 / 1000 := by
  constructor
  · intro p hp0 hp1
    rw [bitFlip_q0, bitFlip_q1, expObs_flip_channel X1_herm X1_ZZ_X1 hp0 hp1,
      expObs_flip_channel X0_herm X0_ZZ_X0 hp0 hp1,
      applyGateDM_pure, applyGateDM_pure, expObs_pure]
    have h := bell_ZZ
    simp only [applyGateVec] at h
    rw [h]
    ring
  · norm_num

/-- Witness for C3 at the notebook's flip probability `p = 1/5 = 0.2`. -/
theorem C3_witness :
    expObs ZZobs
      (applyChannel ((bitFlipKraus (1 / 5)).map fun K =>
          (1 : Matrix (Fin 2) (Fin 2) ℂ) ⊗ₖ K)
        (applyChannel ((bitFlipKraus (1 / 5)).map fun K =>
            K ⊗ₖ (1 : Matrix (Fin 2) (Fin 2) ℂ))
          (applyGateDM CNOTm (applyGateDM (Hgate ⊗ₖ 1) (pureDM ket00))))) =
      (1 - 2 * (1 / 5 : ℝ)) ^ 2 :=
  C3_bitflip_channel_expectation.1 (1 / 5) (by norm_num) (by norm_num)


/-! ## The JAX-interface circuit and its compiled form -/

/-- The JAX-interface circuit of the notebook: `RX(θ)` on qubit 0, then
`CNOT(0,1)`, measuring `⟨Z⟩` on qubit 0; gates applied one at a time. -/
noncomputable def circuitJ (θ : ℝ) : ℝ :=
  expval Zq0
    (applyGateVec CNOTm (applyGateVec (RX θ ⊗ₖ (1 : Matrix (Fin 2) (Fin 2) ℂ)) ket00))

/-- Compiled (`jax.jit`) model of the same circuit: the gate sequence is
fused into a single matrix before being applied to the state. -/
noncomputable def jitCircuit (θ : ℝ) : ℝ :=
  expval Zq0
    (applyGateVec (CNOTm * (RX θ ⊗ₖ (1 : Matrix (Fin 2) (Fin 2) ℂ))) ket00)

/-- C9: the compiled evaluation returns the same expectation value as the
gate-by-gate evaluation for every parameter value. -/
theorem C9_jit_preserves_semantics (θ : ℝ) : jitCircuit θ = circuitJ θ := by
  simp only [jitCircuit, circuitJ, applyGateVec, Matrix.mulVec_mulVec]

/-- The state after `RX(θ)` on qubit 0 and `CNOT(0,1)`, in closed form. -/
lemma rx0_state (θ : ℝ) :
    applyGateVec CNOTm (applyGateVec (RX θ ⊗ₖ (1 : Matrix (Fin 2) (Fin 2) ℂ)) ket00) =
      fun i => if i = ((0 : Fin 2), (0 : Fin 2)) then (Real.cos (θ / 2) : ℂ)
        else if i = (1, 1) then -Complex.I * Real.sin (θ / 2) else 0 := by
  have h1 : applyGateVec (RX θ ⊗ₖ (1 : Matrix (Fin 2) (Fin 2) ℂ)) ket00 =
      fun i => if i = ((0 : Fin 2), (0 : Fin 2)) then (Real.cos (θ / 2) : ℂ)
        else if i = (1, 0) then -Complex.I * Real.sin (θ / 2) else 0 := by
    funext i
    rcases i with ⟨a, b⟩
    fin_cases a <;> fin_cases b <;>
      simp [applyGateVec, RX, ket00, Matrix.mulVec, Matrix.dotProduct,
        Fintype.sum_prod_type, Fin.sum_univ_two, Matrix.kroneckerMap_apply,
        Matrix.one_apply, Prod.ext_iff]
  rw [h1]
  funext i
  rcases i with ⟨a, b⟩
  fin_cases a <;> fin_cases b <;>
    simp [applyGateVec, CNOTm, Matrix.mulVec, Matrix.dotProduct,
      Fintype.sum_prod_type, Fin.sum_univ_two, Prod.ext_iff]

/-- C10: for the circuit `RX(θ)` on qubit 0 followed by `CNOT(0,1)`, the
expectation of `Z` on qubit 0 equals `cos θ` for every `θ` — the CNOT
leaves the control qubit's `Z` expectation unchanged. -/
theorem C10_cnot_preserves_control_expectation (θ : ℝ) : circuitJ θ = Real.cos θ := by
  rw [circuitJ, rx0_state]
  simp only [expval, Zq0, PauliZ, Matrix.mulVec, Matrix.dotProduct,
    Fintype.sum_prod_type, Fin.sum_univ_two, Matrix.kroneckerMap_apply,
    Matrix.one_apply, Pi.star_apply]
  norm_num [Complex.ext_iff, Complex.mul_re, Complex.mul_im,
    -Complex.ofReal_cos, -Complex.ofReal_sin]
  rw [cos_eq_half_angle θ]
  ring


/-! ## Multi-qubit gate application (spec 4.1) and the round-trip law -/

/-- Overwrite the bits of `s` at the wires `w` with the local bits `v`. -/
def writeBits {N k : ℕ} (w : Fin k → Fin N) (s : Fin N → Fin 2) (v : Fin k → Fin 2) :
    Fin N → Fin 2 :=
  fun i =>
    match (List.finRange k).find? (fun j => decide (w j = i)) with
    | some j => v j
    | none => s i

/-- The tensor-embedded unitary of spec §4.1: the gate's local matrix on the
wires `w`, extended by the identity on untouched qubits. -/
noncomputable def embedM {N k : ℕ} (U : Matrix (Fin k → Fin 2) (Fin k → Fin 2) ℂ)
    (w : Fin k → Fin N) : Matrix (Fin N → Fin 2) (Fin N → Fin 2) ℂ :=
  Matrix.of fun s t =>
    if ∀ i, (∀ j, w j ≠ i) → s i = t i then
      U (fun j => s (w j)) (fun j => t (w j))
    else 0

/-- spec §4.1 `apply_gate` on a pure multi-qubit state: left-multiply by the
tensor-embedded unitary. -/
noncomputable def applyGate {N k : ℕ} (U : Matrix (Fin k → Fin 2) (Fin k → Fin 2) ℂ)
    (w : Fin k → Fin N) (ψ : (Fin N → Fin 2) → ℂ) : (Fin N → Fin 2) → ℂ :=
  (embedM U w).mulVec ψ

lemma find?_w_eq {N k : ℕ} {w : Fin k → Fin N} (hw : Function.Injective w) (j : Fin k) :
    (List.finRange k).find? (fun x => decide (w x = w j)) = some j := by
  cases h : (List.finRange k).find? (fun x => decide (w x = w j)) with
  | none =>
      have := List.find?_eq_none.mp h j (List.mem_finRange j)
      simp at this
  | some j' =>
      have hpj := List.find?_some h
      simp only [decide_eq_true_eq] at hpj
      rw [hw hpj]

lemma writeBits_apply_w {N k : ℕ} {w : Fin k → Fin N} (hw : Function.Injective w)
    (s : Fin N → Fin 2) (v : Fin k → Fin 2) (j : Fin k) :
    writeBits w s v (w j) = v j := by
  unfold writeBits
  rw [find?_w_eq hw j]

lemma writeBits_comp {N k : ℕ} {w : Fin k → Fin N} (hw : Function.Injective w)
    (s : Fin N → Fin 2) (v : Fin k → Fin 2) :
    (fun j => writeBits w s v (w j)) = v :=
  funext fun j => writeBits_apply_w hw s v j

lemma writeBits_apply_off {N k : ℕ} {w : Fin k → Fin N} {i : Fin N}
    (hi : ∀ j, w j ≠ i) (s : Fin N → Fin 2) (v : Fin k → Fin 2) :
    writeBits w s v i = s i := by
  unfold writeBits
  rw [List.find?_eq_none.mpr (fun a _ => by simp [hi a])]

lemma writeBits_writeBits {N k : ℕ} (w : Fin k → Fin N)
    (s : Fin N → Fin 2) (v u : Fin k → Fin 2) :
    writeBits w (writeBits w s v) u = writeBits w s u := by
  funext i
  unfold writeBits
  cases h : (List.finRange k).find? (fun j => decide (w j = i)) with
  | none => simp only [h]
  | some j => simp only [h]

lemma writeBits_self {N k : ℕ} (w : Fin k → Fin N) (s : Fin N → Fin 2) :
    writeBits w s (fun j => s (w j)) = s := by
  funext i
  unfold writeBits
  cases h : (List.finRange k).find? (fun j => decide (w j = i)) with
  | none => rfl
  | some j =>
      have hpj := List.find?_some h
      simp only [decide_eq_true_eq] at hpj
      exact congrArg s hpj

lemma writeBits_agrees_off {N k : ℕ} {w : Fin k → Fin N} (s : Fin N → Fin 2)
    (v : Fin k → Fin 2) :
    ∀ i, (∀ j, w j ≠ i) → s i = writeBits w s v i :=
  fun _ hi => (writeBits_apply_off hi s v).symm

lemma writeBits_of_agree {N k : ℕ} {w : Fin k → Fin N} {s t : Fin N → Fin 2}
    (h : ∀ i, (∀ j, w j ≠ i) → s i = t i) :
    writeBits w s (fun j => t (w j)) = t := by
  funext i
  unfold writeBits
  cases hf : (List.finRange k).find? (fun j => decide (w j = i)) with
  | none =>
      have : ∀ j, w j ≠ i := fun j hj => by
        have := List.find?_eq_none.mp hf j (List.mem_finRange j)
        simp [hj] at this
      exact h i this
  | some j =>
      have hpj := List.find?_some hf
      simp only [decide_eq_true_eq] at hpj
      exact congrArg t hpj

/-- With an injective wire map, `apply_gate` is a sum over the local bits. -/
lemma applyGate_eq {N k : ℕ} {w : Fin k → Fin N} (hw : Function.Injective w)
    (U : Matrix (Fin k → Fin 2) (Fin k → Fin 2) ℂ) (ψ : (Fin N → Fin 2) → ℂ)
    (s : Fin N → Fin 2) :
    applyGate U w ψ s =
      ∑ v : Fin k → Fin 2, U (fun j => s (w j)) v * ψ (writeBits w s v) := by
  rw [applyGate, Matrix.mulVec, Matrix.dotProduct]
  simp only [embedM, Matrix.of_apply, ite_mul, zero_mul]
  rw [Finset.sum_ite, Finset.sum_const_zero, add_zero]
  refine Finset.sum_nbij' (fun t => fun j => t (w j)) (fun v => writeBits w s v) ?_ ?_ ?_ ?_ ?_
  · intro t _
    exact Finset.mem_univ _
  · intro v _
    refine Finset.mem_filter.mpr ⟨Finset.mem_univ _, writeBits_agrees_off s v⟩
  · intro t ht
    exact writeBits_of_agree (Finset.mem_filter.mp ht).2
  · intro v _
    exact writeBits_comp hw s v
  · intro t ht
    simp only [writeBits_of_agree (Finset.mem_filter.mp ht).2]

/-- C6: for every gate matrix `U` with `U† U = 1`, every injective wire
tuple and every state, `apply_gate` with `U` followed by `apply_gate` with
the inverse unitary `U†` returns the original state exactly (hence within
`1e-9`). -/
theorem C6_apply_gate_roundtrip {N k : ℕ} (U : Matrix (Fin k → Fin 2) (Fin k → Fin 2) ℂ)
    (w : Fin k → Fin N) (hU : Uᴴ * U = 1) (hw : Function.Injective w)
    (ψ : (Fin N → Fin 2) → ℂ) :
    applyGate Uᴴ w (applyGate U w ψ) = ψ := by
  funext s
  rw [applyGate_eq hw]
  have hinner : ∀ v : Fin k → Fin 2,
      applyGate U w ψ (writeBits w s v) =
        ∑ u : Fin k → Fin 2, U v u * ψ (writeBits w s u) := by
    intro v
    rw [applyGate_eq hw]
    simp only [writeBits_writeBits]
    rw [show (fun j => writeBits w s v (w j)) = v from writeBits_comp hw s v]
  calc
    ∑ v : Fin k → Fin 2, Uᴴ (fun j => s (w j)) v * applyGate U w ψ (writeBits w s v)
        = ∑ v : Fin k → Fin 2, ∑ u : Fin k → Fin 2,
            Uᴴ (fun j => s (w j)) v * (U v u * ψ (writeBits w s u)) := by
          refine Finset.sum_congr rfl fun v _ => ?_
          rw [hinner v, Finset.mul_sum]
    _ = ∑ u : Fin k → Fin 2,
          (∑ v : Fin k → Fin 2, Uᴴ (fun j => s (w j)) v * U v u) * ψ (writeBits w s u) := by
          rw [Finset.sum_comm]
          refine Finset.sum_congr rfl fun u _ => ?_
          rw [Finset.sum_mul]
          refine Finset.sum_congr rfl fun v _ => by ring
    _ = ∑ u : Fin k → Fin 2,
          (1 : Matrix (Fin k → Fin 2) (Fin k → Fin 2) ℂ) (fun j => s (w j)) u *
            ψ (writeBits w s u) := by
          refine Finset.sum_congr rfl fun u _ => ?_
          rw [← Matrix.mul_apply, hU]
    _ = ψ s := by
          simp only [Matrix.one_apply, ite_mul, one_mul, zero_mul]
          rw [Finset.sum_ite_eq, if_pos (Finset.mem_univ _), writeBits_self]


/-- The Pauli `X` gate as a one-qubit gate matrix in the multi-qubit
index convention. -/
noncomputable def gateX1 : Matrix (Fin 1 → Fin 2) (Fin 1 → Fin 2) ℂ :=
  Matrix.of fun s t => PauliX (s 0) (t 0)

/-- Enumeration of the one-qubit local basis. -/
lemma sum_fn1 {M : Type*} [AddCommMonoid M] (f : (Fin 1 → Fin 2) → M) :
    ∑ x : Fin 1 → Fin 2, f x = f (fun _ => 0) + f (fun _ => 1) := by
  rw [← Fin.sum_univ_two (fun i => f (fun _ => i))]
  exact (Fintype.sum_equiv (Equiv.funUnique (Fin 1) (Fin 2)).symm
    (fun i => f (fun _ => i)) f (fun i => rfl)).symm

/-- The one-qubit `X` gate is unitary. -/
lemma gateX1_unitary : gateX1ᴴ * gateX1 = 1 := by
  ext s t
  rw [Matrix.mul_apply, sum_fn1 (fun x => gateX1ᴴ s x * gateX1 x t)]
  have hs : s = fun _ => s 0 := funext fun i => congrArg s (Subsingleton.elim i 0)
  have ht : t = fun _ => t 0 := funext fun i => congrArg t (Subsingleton.elim i 0)
  rw [hs, ht]
  generalize s 0 = a
  generalize t 0 = b
  fin_cases a <;> fin_cases b <;>
    simp [gateX1, PauliX, Matrix.conjTranspose_apply, Matrix.one_apply,
      funext_iff, Unique.forall_iff]

/-- Witness for C6: the `X` gate on qubit 0 of a two-qubit register,
round-tripped on the constant state. -/
theorem C6_witness :
    (gateX1ᴴ * gateX1 = 1) ∧ Function.Injective (fun _ : Fin 1 => (0 : Fin 2)) ∧
      applyGate gateX1ᴴ (fun _ : Fin 1 => (0 : Fin 2))
        (applyGate gateX1 (fun _ : Fin 1 => (0 : Fin 2)) (fun _ : Fin 2 → Fin 2 => 1)) =
        (fun _ : Fin 2 → Fin 2 => 1) :=
  ⟨gateX1_unitary, fun a b _ => Subsingleton.elim a b,
    C6_apply_gate_roundtrip gateX1 _ gateX1_unitary
      (fun a b _ => Subsingleton.elim a b) _⟩



/-! ## Sampler (spec 4.3): seeded shot-based outputs -/

/-- Linear congruential generator: the explicit pseudo-random source of the
sampler model (spec §4.3 requires a caller-supplied seed and no implicit
global random state). -/
def lcg (s : ℕ) : ℕ := (1103515245 * s + 12345) % 2 ^ 31

/-- The stream of raw generator values obtained by iterating `lcg` from the
caller-supplied seed; shot `t` uses the `t`-th value. -/
def lcgStream : ℕ → ℕ → ℕ
  | 0, seed => lcg seed
  | t + 1, seed => lcg (lcgStream t seed)

/-- A uniform variate in `[0,1)` derived from a raw generator value. -/
noncomputable def unifR (s : ℕ) : ℝ := (s % 2 ^ 31 : ℕ) / 2 ^ 31

lemma unifR_nonneg (s : ℕ) : 0 ≤ unifR s := by
  rw [unifR]
  positivity

lemma unifR_lt_one (s : ℕ) : unifR s < 1 := by
  rw [unifR, div_lt_one (by norm_num)]
  exact_mod_cast Nat.mod_lt _ (by norm_num)

/-- Inverse-CDF sampling: walk the outcome list, subtracting each outcome's
probability from the uniform variate until it is exhausted; `d` is the
fallback outcome. -/
noncomputable def pickFrom {ι : Type*} : List ι → (ι → ℝ) → ℝ → ι → ι
  | [], _, _, d => d
  | x :: xs, P, u, d => if u < P x then x else pickFrom xs P (u - P x) d

/-- Probability distribution derived from a pure state: `|amplitude|²` per
basis outcome (spec §4.3). -/
noncomputable def probVec {n : Type*} (ψ : n → ℂ) : n → ℝ := fun i => Complex.normSq (ψ i)

/-- spec §4.3 `sample(state, num_shots, rng_seed)`: an ordered sequence of
`num_shots` outcomes, shot `t` drawn by inverse-CDF from the state's
distribution using the `t`-th seeded generator value. -/
noncomputable def sample {n : Type*} (outcomes : List n) (ψ : n → ℂ)
    (shots seed : ℕ) (d : n) : List n :=
  (List.range shots).map fun t => pickFrom outcomes (probVec ψ) (unifR (lcgStream t seed)) d

/-- A pick either falls back to the default or lands on a listed outcome of
positive probability. -/
lemma pickFrom_mem_or_default {ι : Type*} (l : List ι) (P : ι → ℝ) (u : ℝ) (d : ι)
    (hu : 0 ≤ u) :
    pickFrom l P u d = d ∨ (pickFrom l P u d ∈ l ∧ 0 < P (pickFrom l P u d)) := by
  induction l generalizing u with
  | nil => left; rfl
  | cons x xs ih =>
      rw [pickFrom]
      by_cases h : u < P x
      · rw [if_pos h]
        exact Or.inr ⟨List.mem_cons_self x xs, lt_of_le_of_lt hu h⟩
      · rw [if_neg h]
        push_neg at h
        rcases ih (u - P x) (by linarith) with h1 | ⟨h2, h3⟩
        · exact Or.inl h1
        · exact Or.inr ⟨List.mem_cons_of_mem x h2, h3⟩

/-- On a distribution concentrated on `z`, every pick with variate in
`[0,1)` returns `z`. -/
lemma pickFrom_indicator {ι : Type*} [DecidableEq ι] (l : List ι) (z d : ι) (u : ℝ)
    (hu : 0 ≤ u) (hu1 : u < 1) (hz : z ∈ l) :
    pickFrom l (fun o => if o = z then (1 : ℝ) else 0) u d = z := by
  induction l generalizing u with
  | nil => exact absurd hz (List.not_mem_nil z)
  | cons x xs ih =>
      rw [pickFrom]
      by_cases hx : x = z
      · rw [if_pos (by rw [if_pos hx]; exact hu1)]
        exact hx
      · rw [if_neg (by rw [if_neg hx]; exact not_lt.mpr hu)]
        have hz' : z ∈ xs := by
          rcases List.mem_cons.mp hz with h | h
          · exact absurd h.symm hx
          · exact h
        have hrw : u - (if x = z then (1 : ℝ) else 0) = u := by rw [if_neg hx, sub_zero]
        rw [hrw]
        exact ih u hu hu1 hz'

/-! Two-mode Fock space with cutoff 8 (Strawberry Fields demo). -/

/-- Two-mode photon-number basis with cutoff dimension 8. -/
abbrev F2 := Fin 8 × Fin 8

/-- All two-mode outcomes, enumerated. -/
def allF2 : List F2 := (List.finRange 8).flatMap fun a => (List.finRange 8).map fun b => (a, b)

/-- An operator is photon-number preserving if its matrix elements between
number sectors of different totals vanish. -/
def numberPreserving (U : Matrix F2 F2 ℂ) : Prop :=
  ∀ a b : F2, (a.1 : ℕ) + (a.2 : ℕ) ≠ (b.1 : ℕ) + (b.2 : ℕ) → U a b = 0

/-- The product Fock input state `|n,m⟩`. -/
noncomputable def fockInput (n m : Fin 8) : F2 → ℂ := fun i => if i = (n, m) then 1 else 0

lemma mulVec_fock (U : Matrix F2 F2 ℂ) (n m : Fin 8) (o : F2) :
    U.mulVec (fockInput n m) o = U o (n, m) := by
  rw [Matrix.mulVec, Matrix.dotProduct]
  simp only [fockInput, mul_ite, mul_one, mul_zero]
  rw [Finset.sum_ite_eq' Finset.univ (n, m) (fun b => U o b)]
  simp

/-- C8: for a photon-number-preserving operator applied to a two-mode Fock
input, every outcome vector returned by `sample` has the same total photon
count as the prepared input. -/
theorem C8_photon_number_conserved (U : Matrix F2 F2 ℂ) (hU : numberPreserving U)
    (n m : Fin 8) (shots seed : ℕ) :
    ∀ o ∈ sample allF2 (U.mulVec (fockInput n m)) shots seed (n, m),
      (o.1 : ℕ) + (o.2 : ℕ) = (n : ℕ) + (m : ℕ) := by
  intro o ho
  rw [sample] at ho
  obtain ⟨t, -, hto⟩ := List.mem_map.mp ho
  rcases pickFrom_mem_or_default allF2 (probVec (U.mulVec (fockInput n m)))
      (unifR (lcgStream t seed)) (n, m) (unifR_nonneg _) with h | ⟨-, hpos⟩
  · rw [hto] at h
    rw [h]
  · rw [hto] at hpos
    by_contra hne
    have h0 : U o (n, m) = 0 := hU o (n, m) hne
    have hzero : probVec (U.mulVec (fockInput n m)) o = 0 := by
      rw [probVec, mulVec_fock, h0]
      simp
    rw [hzero] at hpos
    exact lt_irrefl 0 hpos

/-- The two-mode swap, the number-preserving model of the 50:50
beamsplitter interaction used in the demo. -/
noncomputable def swapU : Matrix F2 F2 ℂ :=
  Matrix.of fun i j => if i.1 = j.2 ∧ i.2 = j.1 then 1 else 0

lemma swapU_numberPreserving : numberPreserving swapU := by
  intro a b hab
  rw [swapU, Matrix.of_apply, if_neg]
  rintro ⟨h1, h2⟩
  apply hab
  rw [h1, h2, Nat.add_comm]

lemma prob_swap_fock :
    probVec (swapU.mulVec (fockInput 5 1)) =
      fun o => if o = ((1 : Fin 8), (5 : Fin 8)) then (1 : ℝ) else 0 := by
  funext o
  rw [probVec, mulVec_fock]
  by_cases ho : o = ((1 : Fin 8), (5 : Fin 8))
  · rw [if_pos ho, ho]
    simp [swapU]
  · rw [if_neg ho]
    have h0 : swapU o (5, 1) = 0 := by
      rw [swapU, Matrix.of_apply, if_neg]
      rintro ⟨h1, h2⟩
      exact ho (Prod.ext h1 h2)
    rw [h0]
    simp

lemma sample_swap_fock :
    sample allF2 (swapU.mulVec (fockInput 5 1)) 1 42 (5, 1) =
      [((1 : Fin 8), (5 : Fin 8))] := by
  rw [sample, show List.range 1 = [0] from rfl, List.map_cons, List.map_nil, prob_swap_fock,
    pickFrom_indicator allF2 ((1 : Fin 8), (5 : Fin 8)) ((5 : Fin 8), (1 : Fin 8)) _
      (unifR_nonneg _) (unifR_lt_one _) (by decide)]

/-- Witness for C8: the notebook scenario — `Fock(5)`, `Fock(1)`, a
beamsplitter (modelled by the mode swap) and one measured shot, which
yields the outcome `(1,5)` with total photon count `6`. -/
theorem C8_witness :
    numberPreserving swapU ∧
      ((1 : Fin 8), (5 : Fin 8)) ∈ sample allF2 (swapU.mulVec (fockInput 5 1)) 1 42 (5, 1) ∧
      ((1 : Fin 8) : ℕ) + ((5 : Fin 8) : ℕ) = ((5 : Fin 8) : ℕ) + ((1 : Fin 8) : ℕ) ∧
      ((1 : Fin 8) : ℕ) + ((5 : Fin 8) : ℕ) = 6 := by
  have hmem : ((1 : Fin 8), (5 : Fin 8)) ∈
      sample allF2 (swapU.mulVec (fockInput 5 1)) 1 42 (5, 1) := by
    rw [sample_swap_fock]
    exact List.mem_singleton.mpr rfl
  exact ⟨swapU_numberPreserving, hmem,
    C8_photon_number_conserved swapU swapU_numberPreserving 5 1 1 42 ((1 : Fin 8), (5 : Fin 8)) hmem,
    by decide⟩

/-- C7: circuit evaluation is a deterministic function of its inputs, and
sampling is a separate step that depends only on the state's probability
distribution, the shot count and the caller-supplied seed — in particular
two sample calls with the same seed and distribution-equal states return
the same outcome sequence. -/
theorem C7_deterministic_evaluation_seeded_sampling :
    (∀ p q : ℝ × ℝ, p = q → circuit p = circuit q) ∧
    (∀ (n : Type) (outcomes : List n) (ψ φ : n → ℂ) (shots seed : ℕ) (d : n),
      probVec ψ = probVec φ →
      sample outcomes ψ shots seed d = sample outcomes φ shots seed d) := by
  refine ⟨fun p q h => by rw [h], ?_⟩
  intro n outcomes ψ φ shots seed d h
  rw [sample, sample, h]

/-- Witness for C7: the notebook parameter point, and two superficially
different states (differing by a global phase) with the same distribution,
sampled with the same seed. -/
theorem C7_witness :
    ((0.54, 0.12) : ℝ × ℝ) = (0.54, 0.12) ∧
      circuit (0.54, 0.12) = circuit (0.54, 0.12) ∧
      probVec (![1, 0] : Fin 2 → ℂ) = probVec ![-1, 0] ∧
      sample [0, 1] (![1, 0] : Fin 2 → ℂ) 3 42 0 = sample [0, 1] ![-1, 0] 3 42 0 := by
  have hp : probVec (![1, 0] : Fin 2 → ℂ) = probVec ![-1, 0] := by
    funext i
    fin_cases i <;> simp [probVec]
  exact ⟨rfl, C7_deterministic_evaluation_seeded_sampling.1 _ _ rfl, hp,
    C7_deterministic_evaluation_seeded_sampling.2 (Fin 2) [0, 1] ![1, 0] ![-1, 0] 3 42 0 hp⟩



end PlaasSpec
